import Mathlib

/-
Verification of the cell-clustering simulation (`cell_clustering.cpp`).

Modelling conventions (shallow embedding):
* float arithmetic is idealised as exact rational arithmetic (ℚ);
* `sqrt` (used by `getNorm` / `getL2Distance`) has no rational realisation,
  so every definition that needs it takes an uninterpreted function
  `sq : ℚ → ℚ` as an explicit parameter.  All theorems below are proved for
  every such `sq`; none of the verified claims depends on properties of the
  square root beyond where its value is compared to zero, and those
  comparisons are kept symbolic;
* the C stream of `rand()` draws is modelled as an input stream
  `r : ℕ → ℚ` of the values returned by `RandomFloatPos()` together with a
  cursor that advances three draws per movement and three per duplication,
  in program order;
* the two concentration grids `Conc[substance][x][y][z]` are modelled as a
  total function from a substance index and an integer voxel coordinate to
  a rational; the C code only ever touches indices inside `[0,L)³`;
* in ℚ, division by zero yields 0; whenever a theorem asserts absence of a
  zero denominator this totalisation is never exercised.
-/

namespace CellClustering

/-- A cell record: 3D position, type (+1 or −1), path traveled since the
last division, and number of divisions undergone.  It mirrors the per-cell
arrays `posAll`, `typesAll`, `pathTraveled`, `numberDivisions` of
`cell_clustering.cpp`. -/
structure Cell where
  pos : ℚ × ℚ × ℚ
  typ : ℤ
  pathTraveled : ℚ
  numberDivisions : ℕ
deriving DecidableEq, Inhabited

/-- `getNorm` of the C source: the L2 norm of a 3-vector, i.e. the square
root of the sum of the squared components, with the square root supplied as
the uninterpreted parameter `sq`. -/
def getNorm (sq : ℚ → ℚ) (v : ℚ × ℚ × ℚ) : ℚ :=
  sq (v.1 * v.1 + v.2.1 * v.2.1 + v.2.2 * v.2.2)

/-- `getL2Distance` of the C source: L2 distance between two 3D positions. -/
def getL2Distance (sq : ℚ → ℚ) (p q : ℚ × ℚ × ℚ) : ℚ :=
  sq ((q.1 - p.1) * (q.1 - p.1) + (q.2.1 - p.2.1) * (q.2.1 - p.2.1) +
    (q.2.2 - p.2.2) * (q.2.2 - p.2.2))

/-- The two concentration grids: substance index (0 or 1) and integer voxel
coordinates to concentration value. -/
abbrev Conc := ℕ → ℤ × ℤ × ℤ → ℚ

/-- Pointwise update of one voxel of one substance. -/
def updVox (f : Conc) (s : ℕ) (v : ℤ × ℤ × ℤ) (val : ℚ) : Conc :=
  fun s' v' => if s' = s ∧ v' = v then val else f s' v'

/-- `sideLength = 1/(float)L`, the length of a side of a diffusion voxel. -/
def sideLength (L : ℤ) : ℚ := 1 / (L : ℚ)

/-- Voxel index of a coordinate: `min((int)floor(pos/sideLength), L-1)`,
exactly as computed in `produceSubstances` and
`runDiffusionClusterStep` (there `L` has already been decremented). -/
def voxIdx (L : ℤ) (x : ℚ) : ℤ := min ⌊x / sideLength L⌋ (L - 1)

/-- Voxel of a cell position: the per-axis clamped floor. -/
def cellVox (L : ℤ) (p : ℚ × ℚ × ℚ) : ℤ × ℤ × ℤ :=
  (voxIdx L p.1, voxIdx L p.2.1, voxIdx L p.2.2)

/-- Substance index deposited by a cell: the C code indexes with
`!(typesAll[c]==1)`, i.e. substance 0 for type +1 and substance 1 for any
other type (in particular −1). -/
def substOf (t : ℤ) : ℕ := if t = 1 then 0 else 1

/-- One deposition of `produceSubstances`: add 0.1 to the voxel's value and
clamp the result to at most 1 (`*C = *C + 0.1; if(*C > 1) *C = 1;`). -/
def deposit (f : Conc) (s : ℕ) (v : ℤ × ℤ × ℤ) : Conc :=
  updVox f s v (if f s v + 1 / 10 > 1 then 1 else f s v + 1 / 10)

/-- `produceSubstances`: every active cell deposits 0.1 of its substance at
its containing voxel.  The C loop runs over `c = 0 .. n-1`; the per-cell
updates are folded in that order. -/
def produceSubstances (f : Conc) (cells : List Cell) (L : ℤ) : Conc :=
  cells.foldl (fun acc c => deposit acc (substOf c.typ) (cellVox L c.pos)) f

/-- Membership of a voxel in the `L × L × L` grid (the C loops run all
three indices over `0 .. L-1`). -/
def inGrid (L : ℤ) (v : ℤ × ℤ × ℤ) : Prop :=
  0 ≤ v.1 ∧ v.1 < L ∧ 0 ≤ v.2.1 ∧ v.2.1 < L ∧ 0 ≤ v.2.2 ∧ v.2.2 < L

instance (L : ℤ) (v : ℤ × ℤ × ℤ) : Decidable (inGrid L v) := by
  unfold inGrid; infer_instance

/-- `runDiffusionStep`, transcribed from the source: the grid is first
copied into `tempConc` (the snapshot); then for every in-grid voxel the six
axis-aligned neighbor terms are accumulated into the live value, each
guarded by the source's bound check (`xUp<L`, `xDown>=0`, ...), each term
reading the snapshot of the neighbor and the snapshot `tC` of the voxel
itself.  Since the live array is only written at the voxel being processed
and every read is from the snapshot, the in-place C update is exactly this
pointwise function of the old grid `f`. -/
def runDiffusionStep (f : Conc) (L : ℤ) (D : ℚ) : Conc := fun s v =>
  if inGrid L v then
    let d := D / 6
    let c := f s v
    let a1 := if v.1 + 1 < L then c + (f s (v.1 + 1, v.2.1, v.2.2) - c) * d else c
    let a2 := if 0 ≤ v.1 - 1 then a1 + (f s (v.1 - 1, v.2.1, v.2.2) - c) * d else a1
    let a3 := if v.2.1 + 1 < L then a2 + (f s (v.1, v.2.1 + 1, v.2.2) - c) * d else a2
    let a4 := if 0 ≤ v.2.1 - 1 then a3 + (f s (v.1, v.2.1 - 1, v.2.2) - c) * d else a3
    let a5 := if v.2.2 + 1 < L then a4 + (f s (v.1, v.2.1, v.2.2 + 1) - c) * d else a4
    let a6 := if 0 ≤ v.2.2 - 1 then a5 + (f s (v.1, v.2.1, v.2.2 - 1) - c) * d else a5
    a6
  else f s v

/-- The diffusion step as the specification states it: for every in-grid
voxel, add `(neighbor_snapshot − self_snapshot) * (D/6)` for each of the
six axis-aligned neighbors that lies within the grid; a missing neighbor
contributes nothing.  All reads are from the old grid `f`. -/
def runDiffusionStepSpec (f : Conc) (L : ℤ) (D : ℚ) : Conc := fun s v =>
  if inGrid L v then
    f s v
      + (if inGrid L (v.1 + 1, v.2.1, v.2.2) then
          (f s (v.1 + 1, v.2.1, v.2.2) - f s v) * (D / 6) else 0)
      + (if inGrid L (v.1 - 1, v.2.1, v.2.2) then
          (f s (v.1 - 1, v.2.1, v.2.2) - f s v) * (D / 6) else 0)
      + (if inGrid L (v.1, v.2.1 + 1, v.2.2) then
          (f s (v.1, v.2.1 + 1, v.2.2) - f s v) * (D / 6) else 0)
      + (if inGrid L (v.1, v.2.1 - 1, v.2.2) then
          (f s (v.1, v.2.1 - 1, v.2.2) - f s v) * (D / 6) else 0)
      + (if inGrid L (v.1, v.2.1, v.2.2 + 1) then
          (f s (v.1, v.2.1, v.2.2 + 1) - f s v) * (D / 6) else 0)
      + (if inGrid L (v.1, v.2.1, v.2.2 - 1) then
          (f s (v.1, v.2.1, v.2.2 - 1) - f s v) * (D / 6) else 0)
  else f s v

/-- Three consecutive draws of `RandomFloatPos() - 0.5` starting at stream
position `k`: the raw random 3-vector built by the source before
normalisation. -/
def rvec (r : ℕ → ℚ) (k : ℕ) : ℚ × ℚ × ℚ :=
  (r k - 1 / 2, r (k + 1) - 1 / 2, r (k + 2) - 1 / 2)

/-- The random-movement part of `cellMovementAndDuplication` for one cell:
draw a random 3-vector at stream position `k`, add `0.1 * component / norm`
to each position coordinate, and add 0.1 to `pathTraveled`. -/
def moveCell (sq : ℚ → ℚ) (r : ℕ → ℚ) (k : ℕ) (c : Cell) : Cell :=
  let m := rvec r k
  let nrm := getNorm sq m
  { c with
    pos := (c.pos.1 + 1 / 10 * m.1 / nrm, c.pos.2.1 + 1 / 10 * m.2.1 / nrm,
      c.pos.2.2 + 1 / 10 * m.2.2 / nrm),
    pathTraveled := c.pathTraveled + 1 / 10 }

/-- The daughter cell written by a division, given the parent record after
its own update (position already moved, `numberDivisions` already
incremented): the daughter copies the parent's post-increment division
count, takes the opposite type, and sits at the parent's position offset by
`0.05 * component / norm` of a fresh random 3-vector drawn at stream
position `k`.  Its `pathTraveled` is the value already in the backing
array, which `main` initialised to 0 for every index below
`finalNumberCells` and which is never written before the slot becomes
active. -/
def daughterCell (sq : ℚ → ℚ) (r : ℕ → ℚ) (k : ℕ) (parent : Cell) : Cell :=
  let o := rvec r k
  let nrm := getNorm sq o
  { pos := (parent.pos.1 + 1 / 20 * o.1 / nrm, parent.pos.2.1 + 1 / 20 * o.2.1 / nrm,
      parent.pos.2.2 + 1 / 20 * o.2.2 / nrm),
    typ := -parent.typ,
    pathTraveled := 0,
    numberDivisions := parent.numberDivisions }

/-- The parent's record after a division: `pathTraveled[c] -= pathThreshold`
and `numberDivisions[c] += 1`, applied to the already-moved record `mc`
(`oldc` is the record read at the start of the loop body, whose division
count the increment is based on). -/
def parentAfterDivision (thr : ℚ) (oldc mc : Cell) : Cell :=
  { mc with
      pathTraveled := mc.pathTraveled - thr,
      numberDivisions := oldc.numberDivisions + 1 }

/-- The loop body of `cellMovementAndDuplication`, transcribed from the
source: `m` cells remain to be processed, `c` is the index of the next one,
`cells` is the current population (daughters are appended at index
`currentNumberCells - 1`, i.e. at the end), and `k` is the random-stream
cursor.  The loop runs over the `n` cells that existed when the call
began, so daughters appended during the call are not processed by it. -/
def cmadGo (sq : ℚ → ℚ) (r : ℕ → ℚ) (thr : ℚ) (divThr : ℕ) :
    ℕ → ℕ → List Cell → ℕ → List Cell × ℕ
  | 0, _, cells, k => (cells, k)
  | m + 1, c, cells, k =>
    let cell := cells.getD c default
    let mc := moveCell sq r k cell
    if cell.numberDivisions < divThr ∧ thr < mc.pathTraveled then
      let parent := parentAfterDivision thr cell mc
      cmadGo sq r thr divThr m (c + 1)
        (cells.set c parent ++ [daughterCell sq r (k + 3) parent]) (k + 6)
    else
      cmadGo sq r thr divThr m (c + 1) (cells.set c mc) (k + 3)

/-- Population state during phase 1: the cell list and the random-stream
cursor. -/
structure GrowthState where
  cells : List Cell
  rng : ℕ
deriving DecidableEq, Inhabited

/-- `cellMovementAndDuplication`: process each of the cells present at the
start of the call, in index order. -/
def cellMovementAndDuplication (sq : ℚ → ℚ) (r : ℕ → ℚ) (thr : ℚ) (divThr : ℕ)
    (s : GrowthState) : GrowthState :=
  let res := cmadGo sq r thr divThr s.cells.length 0 s.cells s.rng
  ⟨res.1, res.2⟩

/-- The division trigger, phrased on the pre-step record: a cell divides in
a growth step exactly when its division count is below `divThr` and its
path traveled after the 0.1 increment exceeds `thr`. -/
def trig (thr : ℚ) (divThr : ℕ) (c : Cell) : Bool :=
  decide (c.numberDivisions < divThr ∧ thr < c.pathTraveled + 1 / 10)

/-- Specification form of one growth pass (from the spec's description of
`growthStep` and the Data Model division rules): walk the pre-pass cells in
order, move each one, and for each cell satisfying the division trigger
subtract `pathThreshold` from the parent's path, increment its division
count, and emit a daughter per `daughterCell`.  Returns the updated
originals, the list of appended daughters in order, and the final
random-stream cursor. -/
def stepCells (sq : ℚ → ℚ) (r : ℕ → ℚ) (thr : ℚ) (divThr : ℕ) :
    List Cell → ℕ → List Cell × List Cell × ℕ
  | [], k => ([], [], k)
  | cell :: rest, k =>
    let mc := moveCell sq r k cell
    if cell.numberDivisions < divThr ∧ thr < mc.pathTraveled then
      let parent := parentAfterDivision thr cell mc
      let res := stepCells sq r thr divThr rest (k + 6)
      (parent :: res.1, daughterCell sq r (k + 3) parent :: res.2.1, res.2.2)
    else
      let res := stepCells sq r thr divThr rest (k + 3)
      (mc :: res.1, res.2.1, res.2.2)

/-- The specification form of `cellMovementAndDuplication`: updated
originals followed by the daughters appended during the pass. -/
def cellMovementAndDuplicationSpec (sq : ℚ → ℚ) (r : ℕ → ℚ) (thr : ℚ)
    (divThr : ℕ) (s : GrowthState) : GrowthState :=
  let res := stepCells sq r thr divThr s.cells s.rng
  ⟨res.1 ++ res.2.1, res.2.2⟩

/-- One coordinate of the boundary condition:
`if(p<0) p=0; else if(p>1) p=1;`. -/
def clampQ (x : ℚ) : ℚ := if x < 0 then 0 else if 1 < x then 1 else x

/-- Clamp all three position coordinates of a cell to `[0,1]`. -/
def clampCell (c : Cell) : Cell :=
  { c with pos := (clampQ c.pos.1, clampQ c.pos.2.1, clampQ c.pos.2.2) }

/-- The phase-1 boundary-condition loop `for(c=n;c>0;--c)`, transcribed
exactly: it clamps the cells at indices `n, n-1, ..., 1` and stops before
index 0.  (`List.set` at an out-of-range index is a no-op, matching the
fact that the C write to `posAll[n]` touches no active cell.) -/
def clampGoPhase1 : ℕ → List Cell → List Cell
  | 0, cells => cells
  | m + 1, cells => clampGoPhase1 m (cells.set (m + 1) (clampCell (cells.getD (m + 1) default)))

/-- The whole phase-1 clamp pass, run with `n` equal to the cell count
returned by `cellMovementAndDuplication`. -/
def clampPassPhase1 (cells : List Cell) : List Cell :=
  clampGoPhase1 cells.length cells

/-- One iteration of the phase-1 driver loop on the population state, taken
while `n < finalNumberCells`: run `cellMovementAndDuplication`, then the
boundary-condition pass.  (`produceSubstances`, `runDiffusionStep` and
`runDecayStep` also run inside the loop but neither read nor write any
cell state, so the cell-population dynamics of phase 1 are exactly this
map.)  When the population has reached `target` the loop has exited and
the state is left unchanged. -/
def phase1Step (sq : ℚ → ℚ) (r : ℕ → ℚ) (thr : ℚ) (divThr : ℕ) (target : ℕ)
    (s : GrowthState) : GrowthState :=
  if s.cells.length < target then
    let s' := cellMovementAndDuplication sq r thr divThr s
    ⟨clampPassPhase1 s'.cells, s'.rng⟩
  else s

/-- The initial population of `main`: one cell of type +1 with zero
divisions and zero path traveled, at position `(0.5, 0.5, z0)`.  The
initialisation loop writes only coordinates 0 and 1 of `posAll[i]`; the
third coordinate is never written, so it is modelled as an arbitrary
parameter `z0`. -/
def initState (z0 : ℚ) : GrowthState :=
  ⟨[⟨(1 / 2, 1 / 2, z0), 1, 0, 0⟩], 0⟩

/-- The upward finite-difference neighbor index of `runDiffusionClusterStep`:
`min(i+1, L-1)` (the source decrements `L` first, so `L` here is the grid
resolution and `L-1` the last valid index). -/
def upIdx (L : ℤ) (i : ℤ) : ℤ := min (i + 1) (L - 1)

/-- The downward finite-difference neighbor index: `max(i-1, 0)`. -/
def downIdx (i : ℤ) : ℤ := max (i - 1) 0

/-- One finite-difference gradient denominator of `runDiffusionClusterStep`:
`sideLength * (xUp - xDown)` for the clamped voxel index of coordinate
`x`. -/
def gradDen (L : ℤ) (x : ℚ) : ℚ :=
  sideLength L * ((upIdx L (voxIdx L x) : ℚ) - (downIdx (voxIdx L x) : ℚ))

/-- The finite-difference gradient of substance `s` at position `p`,
transcribed from `runDiffusionClusterStep`: per axis, the difference of the
field at the clamped up and down neighbor indices over
`sideLength * (up - down)`. -/
def gradVec (f : Conc) (s : ℕ) (L : ℤ) (p : ℚ × ℚ × ℚ) : ℚ × ℚ × ℚ :=
  let i1 := voxIdx L p.1
  let i2 := voxIdx L p.2.1
  let i3 := voxIdx L p.2.2
  ((f s (upIdx L i1, i2, i3) - f s (downIdx i1, i2, i3)) / gradDen L p.1,
   (f s (i1, upIdx L i2, i3) - f s (i1, downIdx i2, i3)) / gradDen L p.2.1,
   (f s (i1, i2, upIdx L i3) - f s (i1, i2, downIdx i3)) / gradDen L p.2.2)

/-- The movement vector computed for one cell by `runDiffusionClusterStep`:
if both gradient norms are strictly positive the vector is
`typesAll[c] * (gradSub1/normGrad1 - gradSub2/normGrad2) * speed`
componentwise, otherwise the zero vector. -/
def clusterMovVec (sq : ℚ → ℚ) (f : Conc) (L : ℤ) (speed : ℚ) (c : Cell) :
    ℚ × ℚ × ℚ :=
  let g1 := gradVec f 0 L c.pos
  let g2 := gradVec f 1 L c.pos
  let n1 := getNorm sq g1
  let n2 := getNorm sq g2
  if 0 < n1 ∧ 0 < n2 then
    ((c.typ : ℚ) * (g1.1 / n1 - g2.1 / n2) * speed,
     (c.typ : ℚ) * (g1.2.1 / n1 - g2.2.1 / n2) * speed,
     (c.typ : ℚ) * (g1.2.2 / n1 - g2.2.2 / n2) * speed)
  else (0, 0, 0)

/-- `runDiffusionClusterStep`: the loop writes `movVec[c]` for each
`c < cc` independently, so the movement buffer is the per-cell map. -/
def runDiffusionClusterStep (sq : ℚ → ℚ) (f : Conc) (L : ℤ) (speed : ℚ)
    (cells : List Cell) : List (ℚ × ℚ × ℚ) :=
  cells.map (clusterMovVec sq f L speed)

/-- Whether two cells are within `spatialRange` of each other
(`getL2Distance(...) < spatialRange`). -/
def closeB (sq : ℚ → ℚ) (range : ℚ) (a b : Cell) : Bool :=
  decide (getL2Distance sq a.pos b.pos < range)

/-- Count of the unordered pairs `(i1, i2)` with `i1 < i2` satisfying `p`,
enumerated exactly as the double loop
`for i1; for i2 = i1+1` of `getEnergy`/`getCriterion`. -/
def countPairs (p : Cell → Cell → Bool) : List Cell → ℕ
  | [] => 0
  | x :: xs => xs.countP (p x) + countPairs p xs

/-- The half-side of the central subvolume:
`pow(float(targetN)/float(n), 1.0/3.0) / 2`.  The cube root has no rational
realisation, so like `sqrt` it is passed in as an uninterpreted function
`rt3` modelling `pow(., 1.0/3.0)`. -/
def subVolMax (rt3 : ℚ → ℚ) (n : ℕ) (targetN : ℤ) : ℚ :=
  rt3 ((targetN : ℚ) / (n : ℚ)) / 2

/-- The cells copied into `posSubvol`/`typesSubvol`: those whose position
differs from `(0.5, 0.5, 0.5)` by less than `subVolMax` on every axis, in
their original order. -/
def subvolCells (rt3 : ℚ → ℚ) (cells : List Cell) (targetN : ℤ) : List Cell :=
  cells.filter (fun c =>
    decide (|c.pos.1 - 1 / 2| < subVolMax rt3 cells.length targetN ∧
      |c.pos.2.1 - 1 / 2| < subVolMax rt3 cells.length targetN ∧
      |c.pos.2.2 - 1 / 2| < subVolMax rt3 cells.length targetN))

/-- `nrClose` of `getCriterion`: close pairs within the subvolume. -/
def nrClose (sq rt3 : ℚ → ℚ) (cells : List Cell) (range : ℚ) (targetN : ℤ) : ℕ :=
  countPairs (closeB sq range) (subvolCells rt3 cells targetN)

/-- `diffTypeClose` of `getCriterion`: close pairs whose type product is
negative. -/
def diffTypeClose (sq rt3 : ℚ → ℚ) (cells : List Cell) (range : ℚ) (targetN : ℤ) : ℕ :=
  countPairs (fun a b => closeB sq range a b && decide (a.typ * b.typ < 0))
    (subvolCells rt3 cells targetN)

/-- `sameTypeClose` of `getCriterion`: close pairs whose type product is
not negative. -/
def sameTypeClose (sq rt3 : ℚ → ℚ) (cells : List Cell) (range : ℚ) (targetN : ℤ) : ℕ :=
  countPairs (fun a b => closeB sq range a b && !decide (a.typ * b.typ < 0))
    (subvolCells rt3 cells targetN)

/-- `getCriterion`, transcribed from the source: the chain of early
returns on the subvolume population ratio, the correctness coefficient
`diffTypeClose/(nrClose+1)`, and the average same-type neighbor count
`sameTypeClose/nrCellsSubVol`. -/
def getCriterion (sq rt3 : ℚ → ℚ) (cells : List Cell) (range : ℚ) (targetN : ℤ) :
    Bool :=
  let m := (subvolCells rt3 cells targetN).length
  if ((m : ℚ) / (targetN : ℚ)) < 1 / 4 then false
  else if ((m : ℚ) / (targetN : ℚ)) > 4 then false
  else if ((diffTypeClose sq rt3 cells range targetN : ℚ)) /
      ((nrClose sq rt3 cells range targetN : ℚ) + 1) > 1 / 10 then false
  else if ((sameTypeClose sq rt3 cells range targetN : ℚ)) / (m : ℚ) < 100 then
    false
  else true

/-- Division-capacity potential of a population: each cell with division
count `d` contributes `2 ^ (B - d)` descendants-including-itself that its
lineage can still reach under division threshold `B`.  A division splits
one contribution `2 ^ (B - d)` into two contributions `2 ^ (B - (d+1))`,
so the total is invariant under growth steps. -/
def phi (B : ℕ) (l : List Cell) : ℕ :=
  (l.map (fun c => 2 ^ (B - c.numberDivisions))).sum

/-- Invariant of the phase-1 population for the configuration
`divThreshold = 3`, `finalNumberCells = 8` of claim C1: all path lengths
are nonnegative, no cell has divided more than 3 times, and the capacity
potential equals `2^3 = 8`. -/
def Inv (s : GrowthState) : Prop :=
  (∀ c ∈ s.cells, 0 ≤ c.pathTraveled) ∧
    (∀ c ∈ s.cells, c.numberDivisions ≤ 3) ∧ phi 3 s.cells = 8

/- ------------------------------------------------------------------ -/
/- Theorems.                                                           -/
/- ------------------------------------------------------------------ -/

theorem moveCell_pathTraveled (sq : ℚ → ℚ) (r : ℕ → ℚ) (k : ℕ) (c : Cell) :
    (moveCell sq r k c).pathTraveled = c.pathTraveled + 1 / 10 := rfl

theorem moveCell_numberDivisions (sq : ℚ → ℚ) (r : ℕ → ℚ) (k : ℕ) (c : Cell) :
    (moveCell sq r k c).numberDivisions = c.numberDivisions := rfl

theorem moveCell_typ (sq : ℚ → ℚ) (r : ℕ → ℚ) (k : ℕ) (c : Cell) :
    (moveCell sq r k c).typ = c.typ := rfl

theorem parentAfterDivision_pathTraveled (thr : ℚ) (oldc mc : Cell) :
    (parentAfterDivision thr oldc mc).pathTraveled = mc.pathTraveled - thr := rfl

theorem parentAfterDivision_numberDivisions (thr : ℚ) (oldc mc : Cell) :
    (parentAfterDivision thr oldc mc).numberDivisions = oldc.numberDivisions + 1 := rfl

theorem daughterCell_typ (sq : ℚ → ℚ) (r : ℕ → ℚ) (k : ℕ) (p : Cell) :
    (daughterCell sq r k p).typ = -p.typ := rfl

theorem daughterCell_numberDivisions (sq : ℚ → ℚ) (r : ℕ → ℚ) (k : ℕ) (p : Cell) :
    (daughterCell sq r k p).numberDivisions = p.numberDivisions := rfl

theorem daughterCell_pathTraveled (sq : ℚ → ℚ) (r : ℕ → ℚ) (k : ℕ) (p : Cell) :
    (daughterCell sq r k p).pathTraveled = 0 := rfl

theorem clampCell_pathTraveled (c : Cell) :
    (clampCell c).pathTraveled = c.pathTraveled := rfl

theorem clampCell_numberDivisions (c : Cell) :
    (clampCell c).numberDivisions = c.numberDivisions := rfl

/-- A guarded accumulation step equals adding a guarded term. -/
theorem ite_acc (c : Prop) [Decidable c] (a t : ℚ) :
    (if c then a + t else a) = a + (if c then t else 0) := by
  split_ifs <;> simp

/-- C4: `runDiffusionStep` first snapshots both fields, then adds, for
every voxel and for each axis-aligned neighbor with index inside `[0,L)`,
`(neighbor_snapshot - self_snapshot) * (D/6)` to the live value; neighbors
outside the grid contribute nothing, and every contribution reads only
snapshot values.  Formally, the transcription of the source loop equals the
specification form at every substance and voxel. -/
theorem runDiffusionStep_eq_spec (f : Conc) (L : ℤ) (D : ℚ) (s : ℕ)
    (v : ℤ × ℤ × ℤ) : runDiffusionStep f L D s v = runDiffusionStepSpec f L D s v := by
  unfold runDiffusionStep runDiffusionStepSpec
  by_cases h : inGrid L v
  · rw [if_pos h, if_pos h]
    have hh := h
    obtain ⟨h1, h2, h3, h4, h5, h6⟩ := hh
    have e1 : inGrid L (v.1 + 1, v.2.1, v.2.2) ↔ v.1 + 1 < L := by
      simp only [inGrid]; omega
    have e2 : inGrid L (v.1 - 1, v.2.1, v.2.2) ↔ 0 ≤ v.1 - 1 := by
      simp only [inGrid]; omega
    have e3 : inGrid L (v.1, v.2.1 + 1, v.2.2) ↔ v.2.1 + 1 < L := by
      simp only [inGrid]; omega
    have e4 : inGrid L (v.1, v.2.1 - 1, v.2.2) ↔ 0 ≤ v.2.1 - 1 := by
      simp only [inGrid]; omega
    have e5 : inGrid L (v.1, v.2.1, v.2.2 + 1) ↔ v.2.2 + 1 < L := by
      simp only [inGrid]; omega
    have e6 : inGrid L (v.1, v.2.1, v.2.2 - 1) ↔ 0 ≤ v.2.2 - 1 := by
      simp only [inGrid]; omega
    simp only [e1, e2, e3, e4, e5, e6, ite_acc]
  · rw [if_neg h, if_neg h]

/-- One deposition keeps every voxel of both substances inside `[0,1]`. -/
theorem deposit_bounds (f : Conc) (s0 : ℕ) (v0 : ℤ × ℤ × ℤ)
    (hf : ∀ s v, 0 ≤ f s v ∧ f s v ≤ 1) :
    ∀ s v, 0 ≤ deposit f s0 v0 s v ∧ deposit f s0 v0 s v ≤ 1 := by
  intro s v
  unfold deposit updVox
  split_ifs with h1 h2
  · exact ⟨by norm_num, le_refl 1⟩
  · have := (hf s0 v0).1
    constructor
    · linarith
    · push_neg at h2
      exact h2
  · exact hf s v

/-- C3: `produceSubstances` deposits, for every active cell, the fixed
increment 0.1 into the voxel `min(floor(pos/sideLength), L-1)` per axis of
substance 0 for type +1 cells and substance 1 otherwise, clamping the
result to at most 1 (see `deposit`, `cellVox`, `substOf`); consequently,
if every voxel value of both substances was in `[0,1]` before the call and
every active cell's position lies in `[0,1]³`, every voxel value of both
substances is in `[0,1]` afterwards, regardless of how many cells map to
the same voxel. -/
theorem produceSubstances_bounds (f : Conc) (cells : List Cell) (L : ℤ)
    (hf : ∀ s v, 0 ≤ f s v ∧ f s v ≤ 1)
    (hpos : ∀ c ∈ cells, 0 ≤ c.pos.1 ∧ c.pos.1 ≤ 1 ∧ 0 ≤ c.pos.2.1 ∧
      c.pos.2.1 ≤ 1 ∧ 0 ≤ c.pos.2.2 ∧ c.pos.2.2 ≤ 1) :
    ∀ s v, 0 ≤ produceSubstances f cells L s v ∧ produceSubstances f cells L s v ≤ 1 := by
  induction cells generalizing f with
  | nil => exact hf
  | cons c cs ih =>
    have hstep := deposit_bounds f (substOf c.typ) (cellVox L c.pos) hf
    have htl : ∀ c' ∈ cs, 0 ≤ c'.pos.1 ∧ c'.pos.1 ≤ 1 ∧ 0 ≤ c'.pos.2.1 ∧
        c'.pos.2.1 ≤ 1 ∧ 0 ≤ c'.pos.2.2 ∧ c'.pos.2.2 ≤ 1 :=
      fun c' hc' => hpos c' (List.mem_cons_of_mem c hc')
    exact ih (deposit f (substOf c.typ) (cellVox L c.pos)) hstep htl

/-- Concrete instantiation of `produceSubstances_bounds`: the all-zero
field, one type +1 cell at the cube center, grid resolution 2. -/
theorem produceSubstances_bounds_witness :
    (∀ s v, 0 ≤ (fun (_ : ℕ) (_ : ℤ × ℤ × ℤ) => (0 : ℚ)) s v ∧
        (fun (_ : ℕ) (_ : ℤ × ℤ × ℤ) => (0 : ℚ)) s v ≤ 1) ∧
      (∀ s v, 0 ≤ produceSubstances (fun _ _ => 0) [⟨(1 / 2, 1 / 2, 1 / 2), 1, 0, 0⟩] 2 s v ∧
        produceSubstances (fun _ _ => 0) [⟨(1 / 2, 1 / 2, 1 / 2), 1, 0, 0⟩] 2 s v ≤ 1) := by
  refine ⟨fun s v => ⟨le_refl 0, by norm_num⟩, ?_⟩
  exact produceSubstances_bounds (fun _ _ => 0) [⟨(1 / 2, 1 / 2, 1 / 2), 1, 0, 0⟩] 2
    (fun s v => ⟨le_refl 0, by norm_num⟩)
    (by intro c hc; simp at hc; subst hc; norm_num)

/-- C6: `runDiffusionClusterStep` computes, for every active cell, the two
per-substance finite-difference gradients at the cell's voxel and sets the
cell's movement vector to `type * speed * (gradient0/norm0 - gradient1/norm1)`
when both L2 norms are strictly positive, and to the zero vector otherwise;
in particular a cell whose local gradients have non-positive norm does not
move that step and no norm is ever used as a divisor unless it is strictly
positive. -/
theorem runDiffusionClusterStep_spec (sq : ℚ → ℚ) (f : Conc) (L : ℤ)
    (speed : ℚ) (cells : List Cell) :
    runDiffusionClusterStep sq f L speed cells = cells.map (fun c =>
      if 0 < getNorm sq (gradVec f 0 L c.pos) ∧ 0 < getNorm sq (gradVec f 1 L c.pos) then
        ((c.typ : ℚ) * speed *
            ((gradVec f 0 L c.pos).1 / getNorm sq (gradVec f 0 L c.pos) -
              (gradVec f 1 L c.pos).1 / getNorm sq (gradVec f 1 L c.pos)),
          (c.typ : ℚ) * speed *
            ((gradVec f 0 L c.pos).2.1 / getNorm sq (gradVec f 0 L c.pos) -
              (gradVec f 1 L c.pos).2.1 / getNorm sq (gradVec f 1 L c.pos)),
          (c.typ : ℚ) * speed *
            ((gradVec f 0 L c.pos).2.2 / getNorm sq (gradVec f 0 L c.pos) -
              (gradVec f 1 L c.pos).2.2 / getNorm sq (gradVec f 1 L c.pos)))
      else (0, 0, 0)) := by
  unfold runDiffusionClusterStep
  refine List.map_congr_left ?_
  intro c _
  unfold clusterMovVec
  dsimp only
  by_cases h : 0 < getNorm sq (gradVec f 0 L c.pos) ∧ 0 < getNorm sq (gradVec f 1 L c.pos)
  · rw [if_pos h, if_pos h]
    refine Prod.ext ?_ (Prod.ext ?_ ?_) <;> dsimp only <;> ring
  · rw [if_neg h, if_neg h]

/-- C8 (amended): for every grid resolution `L ≥ 2` and every position
coordinate in `[0,1]`, the finite-difference denominator
`sideLength*(up-down)` of the clustering-step gradient computation is
nonzero (the same function `gradDen` is used for all three axes). -/
theorem gradDen_ne_zero (L : ℤ) (x : ℚ) (hL : 2 ≤ L) (h0 : 0 ≤ x)
    (h1 : x ≤ 1) : gradDen L x ≠ 0 := by
  have hLQ : (0 : ℚ) < (L : ℚ) := by exact_mod_cast (by omega : (0 : ℤ) < L)
  have hxdiv : x / sideLength L = x * (L : ℚ) := by
    unfold sideLength
    rw [div_div_eq_mul_div, div_one]
  have hi0 : 0 ≤ voxIdx L x := by
    unfold voxIdx
    refine le_min ?_ (by omega)
    rw [hxdiv]
    exact Int.floor_nonneg.mpr (mul_nonneg h0 (le_of_lt hLQ))
  have hiL : voxIdx L x ≤ L - 1 := min_le_right _ _
  have hud : downIdx (voxIdx L x) < upIdx L (voxIdx L x) := by
    unfold upIdx downIdx
    omega
  unfold gradDen
  refine mul_ne_zero ?_ ?_
  · unfold sideLength
    exact one_div_ne_zero (ne_of_gt hLQ)
  · have : ((downIdx (voxIdx L x) : ℚ)) < ((upIdx L (voxIdx L x) : ℚ)) := by
      exact_mod_cast hud
    exact ne_of_gt (sub_pos.mpr this)

/-- Instantiation of `gradDen_ne_zero` at `L = 2`, `x = 1/2`. -/
theorem gradDen_ne_zero_witness :
    (2 : ℤ) ≤ 2 ∧ (0 : ℚ) ≤ 1 / 2 ∧ (1 : ℚ) / 2 ≤ 1 ∧ gradDen 2 (1 / 2) ≠ 0 :=
  ⟨by norm_num, by norm_num, by norm_num,
    gradDen_ne_zero 2 (1 / 2) (by norm_num) (by norm_num) (by norm_num)⟩

/-- C8 counterexample: at grid resolution `L = 1` — which the accepted
configuration range `L > 0` includes — the clamped up and down indices
coincide for the position coordinate 1/2, so the gradient denominator is
zero; the claim that the denominators are nonzero for every `L > 0` fails. -/
theorem gradDen_zero_at_L1 : gradDen 1 (1 / 2) = 0 := by
  have hfl : (⌊(1 : ℚ) / 2 / sideLength 1⌋ : ℤ) = 0 := by
    unfold sideLength
    norm_num
  unfold gradDen upIdx downIdx voxIdx
  rw [hfl]
  norm_num

/-- C9: the initialisation of `main` writes only coordinates 0 and 1 of
the seed position (`initState` therefore carries the never-written third
coordinate as the free parameter `z0`), and the first read of that
coordinate — by `produceSubstances` locating the seed's voxel — observably
depends on it: two values of `z0` lead to different concentration fields,
so the seed's z coordinate is an unspecified value, not a defined value in
`[0,1]`. -/
theorem produceSubstances_depends_on_uninitialized :
    produceSubstances (fun _ _ => 0) ((initState 0).cells) 2 0 (1, 1, 0) ≠
      produceSubstances (fun _ _ => 0) ((initState 1).cells) 2 0 (1, 1, 0) := by
  have hhalf : voxIdx 2 ((1 : ℚ) / 2) = 1 := by
    unfold voxIdx sideLength
    norm_num
  have hzero : voxIdx 2 (0 : ℚ) = 0 := by
    unfold voxIdx sideLength
    norm_num
  have hone : voxIdx 2 (1 : ℚ) = 1 := by
    unfold voxIdx sideLength
    norm_num
  simp only [initState, produceSubstances, List.foldl, cellVox, deposit, updVox, substOf]
  norm_num [hhalf, hzero, hone, Prod.mk.injEq]

/-- C2 failing evaluation: the phase-1 boundary-condition loop
`for(c=n;c>0;--c)` never clamps cell index 0.  With a single active cell
whose x coordinate is −1/10 after its growth movement, the pass leaves it
at −1/10, outside `[0,1]`, although `clampQ` would have moved it to 0. -/
theorem clampPassPhase1_misses_cell_zero :
    ((clampPassPhase1 [⟨(-1 / 10, 1 / 2, 1 / 2), 1, 1 / 2, 0⟩]).getD 0 default).pos.1 =
        -1 / 10 ∧
      ((clampPassPhase1 [⟨(-1 / 10, 1 / 2, 1 / 2), 1, 1 / 2, 0⟩]).getD 0 default).pos.1 < 0 ∧
      clampQ (-1 / 10) = 0 := by
  have hpass : clampPassPhase1 [⟨(-1 / 10, 1 / 2, 1 / 2), 1, 1 / 2, 0⟩] =
      [⟨(-1 / 10, 1 / 2, 1 / 2), 1, 1 / 2, 0⟩] := rfl
  rw [hpass]
  refine ⟨rfl, by norm_num, ?_⟩
  unfold clampQ
  norm_num

/-- Setting the element just past a prefix replaces the head of the
suffix. -/
theorem list_set_at_prefix_length {α : Type} (pre : List α) (x y : α)
    (rest : List α) : (pre ++ y :: rest).set pre.length x = pre ++ x :: rest := by
  induction pre with
  | nil => rfl
  | cons a t ih =>
    show a :: (t ++ y :: rest).set t.length x = a :: (t ++ x :: rest)
    rw [ih]

/-- Reading the element just past a prefix yields the head of the
suffix. -/
theorem list_getD_at_prefix_length {α : Type} (pre : List α) (y : α)
    (rest : List α) (d : α) : (pre ++ y :: rest).getD pre.length d = y := by
  rw [List.getD_append_right pre (y :: rest) d pre.length (le_refl _)]
  simp

/-- The indexed loop of `cellMovementAndDuplication` equals the
structural walk `stepCells` on the unprocessed suffix: processed cells
`pre` and daughters `ds` accumulated so far are untouched, updated
originals land in place, daughters are appended at the end in processing
order. -/
theorem cmadGo_eq_stepCells (sq : ℚ → ℚ) (r : ℕ → ℚ) (thr : ℚ) (divThr : ℕ)
    (suf : List Cell) : ∀ (pre ds : List Cell) (k : ℕ),
    cmadGo sq r thr divThr suf.length pre.length (pre ++ (suf ++ ds)) k =
      (pre ++ ((stepCells sq r thr divThr suf k).1 ++
        (ds ++ (stepCells sq r thr divThr suf k).2.1)),
       (stepCells sq r thr divThr suf k).2.2) := by
  induction suf with
  | nil => intro pre ds k; simp [cmadGo, stepCells]
  | cons cell rest ih =>
    intro pre ds k
    rw [List.length_cons]
    show cmadGo sq r thr divThr (rest.length + 1) pre.length
        (pre ++ (cell :: (rest ++ ds))) k = _
    rw [cmadGo]
    dsimp only
    rw [list_getD_at_prefix_length pre cell (rest ++ ds)]
    by_cases h : cell.numberDivisions < divThr ∧
        thr < (moveCell sq r k cell).pathTraveled
    · rw [if_pos h]
      have hset := list_set_at_prefix_length pre
        (parentAfterDivision thr cell (moveCell sq r k cell)) cell (rest ++ ds)
      rw [hset]
      have hshape : (pre ++ parentAfterDivision thr cell (moveCell sq r k cell) ::
          (rest ++ ds)) ++ [daughterCell sq r (k + 3)
            (parentAfterDivision thr cell (moveCell sq r k cell))] =
          (pre ++ [parentAfterDivision thr cell (moveCell sq r k cell)]) ++
            (rest ++ (ds ++ [daughterCell sq r (k + 3)
              (parentAfterDivision thr cell (moveCell sq r k cell))])) := by
        simp
      have hlen : pre.length + 1 =
          (pre ++ [parentAfterDivision thr cell (moveCell sq r k cell)]).length := by
        simp
      rw [hshape, hlen, ih]
      rw [stepCells]
      rw [if_pos h]
      simp
    · rw [if_neg h]
      have hset := list_set_at_prefix_length pre (moveCell sq r k cell) cell
        (rest ++ ds)
      rw [hset]
      have hshape : pre ++ moveCell sq r k cell :: (rest ++ ds) =
          (pre ++ [moveCell sq r k cell]) ++ (rest ++ ds) := by simp
      have hlen : pre.length + 1 = (pre ++ [moveCell sq r k cell]).length := by simp
      rw [hshape, hlen, ih]
      rw [stepCells]
      rw [if_neg h]
      simp

/-- C5: `cellMovementAndDuplication` coincides with its specification form
`cellMovementAndDuplicationSpec`: a cell spawns a daughter exactly when
`numberDivisions < divThreshold` and its post-displacement `pathTraveled`
exceeds `pathThreshold`; at a division the parent keeps
`pathTraveled - pathThreshold` (no reset to zero) and increments its
division count, and the daughter — appended at the next free index, after
all updated originals — takes the negated parent type, the parent's
post-increment division count, and the parent's position offset by the
radius 0.05 times the normalised random vector (see `stepCells`,
`parentAfterDivision` and `daughterCell`, whose field equations are
restated here). -/
theorem cellMovementAndDuplication_spec (sq : ℚ → ℚ) (r : ℕ → ℚ) (thr : ℚ)
    (divThr : ℕ) (s : GrowthState) :
    cellMovementAndDuplication sq r thr divThr s =
        cellMovementAndDuplicationSpec sq r thr divThr s ∧
      (∀ (k : ℕ) (p : Cell), (daughterCell sq r k p).typ = -p.typ ∧
        (daughterCell sq r k p).numberDivisions = p.numberDivisions ∧
        (daughterCell sq r k p).pathTraveled = 0 ∧
        (daughterCell sq r k p).pos =
          (p.pos.1 + 1 / 20 * (rvec r k).1 / getNorm sq (rvec r k),
           p.pos.2.1 + 1 / 20 * (rvec r k).2.1 / getNorm sq (rvec r k),
           p.pos.2.2 + 1 / 20 * (rvec r k).2.2 / getNorm sq (rvec r k))) ∧
      (∀ (oldc mc : Cell), (parentAfterDivision thr oldc mc).pathTraveled =
          mc.pathTraveled - thr ∧
        (parentAfterDivision thr oldc mc).numberDivisions =
          oldc.numberDivisions + 1) := by
  refine ⟨?_, fun k p => ⟨rfl, rfl, rfl, rfl⟩, fun oldc mc => ⟨rfl, rfl⟩⟩
  have h := cmadGo_eq_stepCells sq r thr divThr s.cells [] [] s.rng
  simp only [List.length_nil, List.nil_append, List.append_nil] at h
  unfold cellMovementAndDuplication cellMovementAndDuplicationSpec
  rw [h]

/-- The Boolean division trigger decides exactly the division condition of
the growth pass. -/
theorem trig_iff (thr : ℚ) (divThr : ℕ) (c : Cell) :
    trig thr divThr c = true ↔
      (c.numberDivisions < divThr ∧ thr < c.pathTraveled + 1 / 10) := by
  simp [trig]

/-- A growth pass maps each pre-pass cell to exactly one updated
original. -/
theorem stepCells_fst_length (sq : ℚ → ℚ) (r : ℕ → ℚ) (thr : ℚ) (divThr : ℕ)
    (l : List Cell) : ∀ k, (stepCells sq r thr divThr l k).1.length = l.length := by
  induction l with
  | nil => intro k; rfl
  | cons cell rest ih =>
    intro k
    rw [stepCells]
    dsimp only
    by_cases h : cell.numberDivisions < divThr ∧ thr < (moveCell sq r k cell).pathTraveled
    · rw [if_pos h]; simp [ih]
    · rw [if_neg h]; simp [ih]

/-- A growth pass appends one daughter per triggering cell. -/
theorem stepCells_daughters_length (sq : ℚ → ℚ) (r : ℕ → ℚ) (thr : ℚ)
    (divThr : ℕ) (l : List Cell) :
    ∀ k, (stepCells sq r thr divThr l k).2.1.length = l.countP (trig thr divThr) := by
  induction l with
  | nil => intro k; rfl
  | cons cell rest ih =>
    intro k
    rw [stepCells]
    dsimp only
    simp only [moveCell_pathTraveled]
    by_cases h : cell.numberDivisions < divThr ∧ thr < cell.pathTraveled + 1 / 10
    · rw [if_pos h]
      have ht : trig thr divThr cell = true := (trig_iff thr divThr cell).mpr h
      simp [List.countP_cons, ht, ih]
    · rw [if_neg h]
      have ht : trig thr divThr cell = false := by
        rw [Bool.eq_false_iff]
        intro hx
        exact h ((trig_iff thr divThr cell).mp hx)
      simp [List.countP_cons, ht, ih]

/-- Division counts after a growth pass: incremented exactly on the
triggering cells. -/
theorem stepCells_fst_divisions (sq : ℚ → ℚ) (r : ℕ → ℚ) (thr : ℚ)
    (divThr : ℕ) (l : List Cell) :
    ∀ k, (stepCells sq r thr divThr l k).1.map Cell.numberDivisions =
      l.map (fun c => if c.numberDivisions < divThr ∧ thr < c.pathTraveled + 1 / 10
        then c.numberDivisions + 1 else c.numberDivisions) := by
  induction l with
  | nil => intro k; rfl
  | cons cell rest ih =>
    intro k
    rw [stepCells]
    dsimp only
    simp only [moveCell_pathTraveled]
    by_cases h : cell.numberDivisions < divThr ∧ thr < cell.pathTraveled + 1 / 10
    · rw [if_pos h]
      simp only [List.map_cons]
      rw [if_pos h]
      simp [parentAfterDivision_numberDivisions, ih]
    · rw [if_neg h]
      simp only [List.map_cons]
      rw [if_neg h]
      simp [moveCell_numberDivisions, ih]

/-- Path lengths after a growth pass: every cell gains 0.1, and triggering
cells additionally pay the path threshold. -/
theorem stepCells_fst_path (sq : ℚ → ℚ) (r : ℕ → ℚ) (thr : ℚ)
    (divThr : ℕ) (l : List Cell) :
    ∀ k, (stepCells sq r thr divThr l k).1.map Cell.pathTraveled =
      l.map (fun c => if c.numberDivisions < divThr ∧ thr < c.pathTraveled + 1 / 10
        then c.pathTraveled + 1 / 10 - thr else c.pathTraveled + 1 / 10) := by
  induction l with
  | nil => intro k; rfl
  | cons cell rest ih =>
    intro k
    rw [stepCells]
    dsimp only
    simp only [moveCell_pathTraveled]
    by_cases h : cell.numberDivisions < divThr ∧ thr < cell.pathTraveled + 1 / 10
    · rw [if_pos h]
      simp only [List.map_cons]
      rw [if_pos h]
      simp [parentAfterDivision_pathTraveled, moveCell_pathTraveled, ih]
    · rw [if_neg h]
      simp only [List.map_cons]
      rw [if_neg h]
      simp [moveCell_pathTraveled, ih]

/-- The capacity potential `phi` is invariant under a growth pass run at
division threshold `divThr`: originals plus daughters carry exactly the
potential of the pre-pass population. -/
theorem stepCells_phi (sq : ℚ → ℚ) (r : ℕ → ℚ) (thr : ℚ) (divThr : ℕ)
    (l : List Cell) :
    ∀ k, phi divThr (stepCells sq r thr divThr l k).1 +
      phi divThr (stepCells sq r thr divThr l k).2.1 = phi divThr l := by
  induction l with
  | nil => intro k; rfl
  | cons cell rest ih =>
    intro k
    rw [stepCells]
    dsimp only
    simp only [moveCell_pathTraveled]
    by_cases h : cell.numberDivisions < divThr ∧ thr < cell.pathTraveled + 1 / 10
    · rw [if_pos h]
      have hsplit : (2 : ℕ) ^ (divThr - cell.numberDivisions) =
          2 ^ (divThr - (cell.numberDivisions + 1)) +
            2 ^ (divThr - (cell.numberDivisions + 1)) := by
        have he : divThr - cell.numberDivisions =
            (divThr - (cell.numberDivisions + 1)) + 1 := by omega
        rw [he, pow_succ, mul_two]
      have hih := ih (k + 6)
      simp only [phi, List.map_cons, List.sum_cons, parentAfterDivision_numberDivisions,
        daughterCell_numberDivisions] at hih ⊢
      rw [hsplit]
      omega
    · rw [if_neg h]
      have hih := ih (k + 3)
      simp only [phi, List.map_cons, List.sum_cons, moveCell_numberDivisions] at hih ⊢
      omega

/-- A growth pass preserves nonnegativity of all path lengths. -/
theorem stepCells_path_nonneg (sq : ℚ → ℚ) (r : ℕ → ℚ) (thr : ℚ)
    (divThr : ℕ) (l : List Cell) (hl : ∀ c ∈ l, 0 ≤ c.pathTraveled) :
    ∀ k c, (c ∈ (stepCells sq r thr divThr l k).1 ∨
      c ∈ (stepCells sq r thr divThr l k).2.1) → 0 ≤ c.pathTraveled := by
  induction l with
  | nil => intro k c hc; rcases hc with hc | hc <;> simp [stepCells] at hc
  | cons cell rest ih =>
    have hhd : 0 ≤ cell.pathTraveled := hl cell (List.mem_cons_self cell rest)
    have htl : ∀ c ∈ rest, 0 ≤ c.pathTraveled :=
      fun c hc => hl c (List.mem_cons_of_mem cell hc)
    intro k c hc
    rw [stepCells] at hc
    dsimp only at hc
    simp only [moveCell_pathTraveled] at hc
    by_cases h : cell.numberDivisions < divThr ∧ thr < cell.pathTraveled + 1 / 10
    · rw [if_pos h] at hc
      rcases hc with hc | hc
      · rcases List.mem_cons.mp hc with he | hc
        · subst he
          rw [parentAfterDivision_pathTraveled, moveCell_pathTraveled]
          linarith [h.2]
        · exact ih htl (k + 6) c (Or.inl hc)
      · rcases List.mem_cons.mp hc with he | hc
        · subst he
          rw [daughterCell_pathTraveled]
        · exact ih htl (k + 6) c (Or.inr hc)
    · rw [if_neg h] at hc
      rcases hc with hc | hc
      · rcases List.mem_cons.mp hc with he | hc
        · subst he
          rw [moveCell_pathTraveled]
          linarith
        · exact ih htl (k + 3) c (Or.inl hc)
      · exact ih htl (k + 3) c (Or.inr hc)

/-- A growth pass keeps every division count at or below the threshold. -/
theorem stepCells_div_le (sq : ℚ → ℚ) (r : ℕ → ℚ) (thr : ℚ)
    (divThr : ℕ) (l : List Cell) (hl : ∀ c ∈ l, c.numberDivisions ≤ divThr) :
    ∀ k c, (c ∈ (stepCells sq r thr divThr l k).1 ∨
      c ∈ (stepCells sq r thr divThr l k).2.1) → c.numberDivisions ≤ divThr := by
  induction l with
  | nil => intro k c hc; rcases hc with hc | hc <;> simp [stepCells] at hc
  | cons cell rest ih =>
    have htl : ∀ c ∈ rest, c.numberDivisions ≤ divThr :=
      fun c hc => hl c (List.mem_cons_of_mem cell hc)
    intro k c hc
    rw [stepCells] at hc
    dsimp only at hc
    simp only [moveCell_pathTraveled] at hc
    by_cases h : cell.numberDivisions < divThr ∧ thr < cell.pathTraveled + 1 / 10
    · rw [if_pos h] at hc
      rcases hc with hc | hc
      · rcases List.mem_cons.mp hc with he | hc
        · subst he
          rw [parentAfterDivision_numberDivisions]
          omega
        · exact ih htl (k + 6) c (Or.inl hc)
      · rcases List.mem_cons.mp hc with he | hc
        · subst he
          rw [daughterCell_numberDivisions, parentAfterDivision_numberDivisions]
          omega
        · exact ih htl (k + 6) c (Or.inr hc)
    · rw [if_neg h] at hc
      rcases hc with hc | hc
      · rcases List.mem_cons.mp hc with he | hc
        · subst he
          rw [moveCell_numberDivisions]
          exact hl cell (List.mem_cons_self cell rest)
        · exact ih htl (k + 3) c (Or.inl hc)
      · exact ih htl (k + 3) c (Or.inr hc)

/-- Replacing one cell by its clamped copy leaves every clamp-invariant
projection of the list unchanged. -/
theorem list_set_clamp_map {β : Type} (f : Cell → β)
    (hf : ∀ c, f (clampCell c) = f c) :
    ∀ (l : List Cell) (j : ℕ),
      (l.set j (clampCell (l.getD j default))).map f = l.map f := by
  intro l
  induction l with
  | nil => intro j; rfl
  | cons a t ih =>
    intro j
    cases j with
    | zero => simp [List.getD_cons_zero, hf]
    | succ j =>
      show List.map f (a :: t.set j (clampCell (t.getD j default))) =
        List.map f (a :: t)
      simp only [List.map_cons]
      rw [ih j]

/-- The phase-1 clamp loop leaves every clamp-invariant projection of the
population unchanged. -/
theorem clampGoPhase1_map {β : Type} (f : Cell → β)
    (hf : ∀ c, f (clampCell c) = f c) :
    ∀ (m : ℕ) (l : List Cell), (clampGoPhase1 m l).map f = l.map f := by
  intro m
  induction m with
  | zero => intro l; rfl
  | succ m ih =>
    intro l
    rw [clampGoPhase1, ih, list_set_clamp_map f hf]

/-- The phase-1 clamp loop does not change the population size. -/
theorem clampGoPhase1_length :
    ∀ (m : ℕ) (l : List Cell), (clampGoPhase1 m l).length = l.length := by
  intro m
  induction m with
  | zero => intro l; rfl
  | succ m ih =>
    intro l
    rw [clampGoPhase1, ih, List.length_set]

/-- Projections of the phase-1 clamp pass. -/
theorem clampPassPhase1_map {β : Type} (f : Cell → β)
    (hf : ∀ c, f (clampCell c) = f c) (l : List Cell) :
    (clampPassPhase1 l).map f = l.map f :=
  clampGoPhase1_map f hf l.length l

/-- Length of the phase-1 clamp pass. -/
theorem clampPassPhase1_length (l : List Cell) :
    (clampPassPhase1 l).length = l.length :=
  clampGoPhase1_length l.length l

/-- Every cell of the clamp pass output shadows a cell of the input with
the same path length and division count. -/
theorem clampPassPhase1_mem_shadow (l : List Cell) (c : Cell)
    (hc : c ∈ clampPassPhase1 l) :
    ∃ c' ∈ l, c'.pathTraveled = c.pathTraveled ∧
      c'.numberDivisions = c.numberDivisions := by
  have hmap := clampPassPhase1_map
    (fun x => (x.pathTraveled, x.numberDivisions)) (fun x => rfl) l
  have hmem : (c.pathTraveled, c.numberDivisions) ∈
      l.map (fun x => (x.pathTraveled, x.numberDivisions)) := by
    rw [← hmap]
    exact List.mem_map_of_mem _ hc
  obtain ⟨c', hc', he⟩ := List.mem_map.mp hmem
  exact ⟨c', hc', congrArg Prod.fst he, congrArg Prod.snd he⟩

/-- While the population is below the target, one driver iteration is the
clamp pass applied to the growth pass. -/
theorem phase1Step_cells_of_lt (sq : ℚ → ℚ) (r : ℕ → ℚ) (thr : ℚ)
    (divThr target : ℕ) (s : GrowthState) (hlen : s.cells.length < target) :
    (phase1Step sq r thr divThr target s).cells =
      clampPassPhase1 ((stepCells sq r thr divThr s.cells s.rng).1 ++
        (stepCells sq r thr divThr s.cells s.rng).2.1) := by
  have h := cmadGo_eq_stepCells sq r thr divThr s.cells [] [] s.rng
  simp only [List.length_nil, List.nil_append, List.append_nil] at h
  unfold phase1Step
  rw [if_pos hlen]
  unfold cellMovementAndDuplication
  rw [h]

/-- Length of one driver iteration below the target: the old count plus
the number of triggering cells. -/
theorem phase1Step_length_of_lt (sq : ℚ → ℚ) (r : ℕ → ℚ) (thr : ℚ)
    (s : GrowthState) (hlen : s.cells.length < 8) :
    (phase1Step sq r thr 3 8 s).cells.length =
      s.cells.length + s.cells.countP (trig thr 3) := by
  rw [phase1Step_cells_of_lt sq r thr 3 8 s hlen, clampPassPhase1_length,
    List.length_append, stepCells_fst_length, stepCells_daughters_length]

/-- At or above the target the driver loop has exited. -/
theorem phase1Step_of_ge (sq : ℚ → ℚ) (r : ℕ → ℚ) (thr : ℚ)
    (divThr target : ℕ) (s : GrowthState) (hlen : ¬s.cells.length < target) :
    phase1Step sq r thr divThr target s = s := by
  unfold phase1Step
  rw [if_neg hlen]

/-- The population size never decreases along the driver. -/
theorem phase1Step_length_mono (sq : ℚ → ℚ) (r : ℕ → ℚ) (thr : ℚ)
    (s : GrowthState) :
    s.cells.length ≤ (phase1Step sq r thr 3 8 s).cells.length := by
  by_cases hlen : s.cells.length < 8
  · rw [phase1Step_length_of_lt sq r thr s hlen]
    exact Nat.le_add_right _ _
  · rw [phase1Step_of_ge sq r thr 3 8 s hlen]

/-- The invariant `Inv` is preserved by one driver iteration. -/
theorem phase1Step_inv (sq : ℚ → ℚ) (r : ℕ → ℚ) (thr : ℚ)
    (s : GrowthState) (h : Inv s) : Inv (phase1Step sq r thr 3 8 s) := by
  by_cases hlen : s.cells.length < 8
  · obtain ⟨hpath, hdiv, hphi⟩ := h
    rw [Inv, phase1Step_cells_of_lt sq r thr 3 8 s hlen]
    refine ⟨?_, ?_, ?_⟩
    · intro c hc
      obtain ⟨c', hc', hp, _⟩ := clampPassPhase1_mem_shadow _ c hc
      rw [← hp]
      rcases List.mem_append.mp hc' with hm | hm
      · exact stepCells_path_nonneg sq r thr 3 s.cells hpath s.rng c' (Or.inl hm)
      · exact stepCells_path_nonneg sq r thr 3 s.cells hpath s.rng c' (Or.inr hm)
    · intro c hc
      obtain ⟨c', hc', _, hd⟩ := clampPassPhase1_mem_shadow _ c hc
      rw [← hd]
      rcases List.mem_append.mp hc' with hm | hm
      · exact stepCells_div_le sq r thr 3 s.cells hdiv s.rng c' (Or.inl hm)
      · exact stepCells_div_le sq r thr 3 s.cells hdiv s.rng c' (Or.inr hm)
    · have hmap := clampPassPhase1_map
        (fun c => (2 : ℕ) ^ (3 - c.numberDivisions)) (fun c => rfl)
        ((stepCells sq r thr 3 s.cells s.rng).1 ++
          (stepCells sq r thr 3 s.cells s.rng).2.1)
      have hphi2 : phi 3 (clampPassPhase1
          ((stepCells sq r thr 3 s.cells s.rng).1 ++
            (stepCells sq r thr 3 s.cells s.rng).2.1)) =
          phi 3 ((stepCells sq r thr 3 s.cells s.rng).1 ++
            (stepCells sq r thr 3 s.cells s.rng).2.1) := by
        unfold phi
        rw [hmap]
      rw [hphi2]
      have happ : phi 3 ((stepCells sq r thr 3 s.cells s.rng).1 ++
          (stepCells sq r thr 3 s.cells s.rng).2.1) =
          phi 3 (stepCells sq r thr 3 s.cells s.rng).1 +
            phi 3 (stepCells sq r thr 3 s.cells s.rng).2.1 := by
        unfold phi
        rw [List.map_append, List.sum_append]
      rw [happ, stepCells_phi, hphi]
  · rw [phase1Step_of_ge sq r thr 3 8 s hlen]
    exact h

/-- A list of naturals that are all at least 1 sums to at least its
length. -/
theorem length_le_sum_of_one_le (ns : List ℕ) (h : ∀ x ∈ ns, 1 ≤ x) :
    ns.length ≤ ns.sum := by
  induction ns with
  | nil => simp
  | cons a t ih =>
    have ha := h a (List.mem_cons_self a t)
    have ht := ih (fun x hx => h x (List.mem_cons_of_mem a hx))
    simp only [List.length_cons, List.sum_cons]
    omega

/-- If naturals all at least 1 sum exactly to the length, each is 1. -/
theorem all_eq_one_of_sum_eq_length (ns : List ℕ) (h : ∀ x ∈ ns, 1 ≤ x)
    (hs : ns.sum = ns.length) : ∀ x ∈ ns, x = 1 := by
  induction ns with
  | nil => simp
  | cons a t ih =>
    have ha := h a (List.mem_cons_self a t)
    have ht : ∀ x ∈ t, 1 ≤ x := fun x hx => h x (List.mem_cons_of_mem a hx)
    have htsum := length_le_sum_of_one_le t ht
    simp only [List.sum_cons, List.length_cons] at hs
    have ha1 : a = 1 := by omega
    have hts : t.sum = t.length := by omega
    intro x hx
    rcases List.mem_cons.mp hx with he | hx
    · exact he.trans ha1 ▸ (by rw [he, ha1])
    · exact ih ht hts x hx

/-- A population's size is at most its capacity potential. -/
theorem length_le_phi (l : List Cell) : l.length ≤ phi 3 l := by
  unfold phi
  have := length_le_sum_of_one_le (l.map (fun c => 2 ^ (3 - c.numberDivisions)))
    (by
      intro x hx
      obtain ⟨c, _, he⟩ := List.mem_map.mp hx
      rw [← he]
      exact Nat.one_le_pow _ _ (by norm_num))
  simpa using this

/-- Under the invariant the population has at most 8 cells. -/
theorem inv_length_le (s : GrowthState) (h : Inv s) : s.cells.length ≤ 8 := by
  have h1 := length_le_phi s.cells
  have h2 := h.2.2
  omega

/-- Under the invariant, a population below 8 cells still has a cell with
fewer than 3 divisions. -/
theorem inv_exists_active (s : GrowthState) (h : Inv s)
    (hlen : s.cells.length < 8) : ∃ c ∈ s.cells, c.numberDivisions < 3 := by
  by_contra hcon
  push_neg at hcon
  have hall : ∀ c ∈ s.cells, 2 ^ (3 - c.numberDivisions) = 1 := by
    intro c hc
    have := hcon c hc
    have h0 : 3 - c.numberDivisions = 0 := by omega
    rw [h0, pow_zero]
  have hphi : phi 3 s.cells = s.cells.length := by
    unfold phi
    have : s.cells.map (fun c => 2 ^ (3 - c.numberDivisions)) =
        s.cells.map (fun _ => 1) := List.map_congr_left hall
    rw [this]
    simp [List.sum_replicate]
  have := h.2.2
  omega

/-- Under the invariant, a population of exactly 8 cells has every cell at
3 divisions, so the division counts sum to 24. -/
theorem inv_sum_divisions (s : GrowthState) (h : Inv s)
    (hlen : s.cells.length = 8) :
    (s.cells.map Cell.numberDivisions).sum = 24 := by
  obtain ⟨_, hdiv, hphi⟩ := h
  have hones := all_eq_one_of_sum_eq_length
    (s.cells.map (fun c => 2 ^ (3 - c.numberDivisions)))
    (by
      intro x hx
      obtain ⟨c, _, he⟩ := List.mem_map.mp hx
      rw [← he]
      exact Nat.one_le_pow _ _ (by norm_num))
    (by
      unfold phi at hphi
      simp only [List.length_map]
      rw [hphi, hlen])
  have hall3 : ∀ c ∈ s.cells, c.numberDivisions = 3 := by
    intro c hc
    have h1 := hones _ (List.mem_map_of_mem (fun c => 2 ^ (3 - c.numberDivisions)) hc)
    have h2 := hdiv c hc
    have h3 : 3 - c.numberDivisions = 0 := by
      by_contra h0
      have hpos : 0 < 3 - c.numberDivisions := Nat.pos_of_ne_zero h0
      have : 2 ≤ 2 ^ (3 - c.numberDivisions) := by
        calc 2 = 2 ^ 1 := (pow_one 2).symm
        _ ≤ 2 ^ (3 - c.numberDivisions) := Nat.pow_le_pow_right (by norm_num) hpos
      omega
    omega
  have : s.cells.map Cell.numberDivisions = s.cells.map (fun _ => 3) :=
    List.map_congr_left hall3
  rw [this]
  have : (s.cells.map (fun _ => 3)).sum = 3 * s.cells.length := by
    induction s.cells with
    | nil => simp
    | cons a t ih => simp only [List.map_cons, List.sum_cons, List.length_cons]; omega
  rw [this, hlen]

/-- The population size is monotone along iterations of the driver. -/
theorem phase1_iterate_mono (sq : ℚ → ℚ) (r : ℕ → ℚ) (thr : ℚ) :
    ∀ (n : ℕ) (s : GrowthState),
      s.cells.length ≤ ((phase1Step sq r thr 3 8)^[n] s).cells.length := by
  intro n
  induction n with
  | zero => intro s; simp
  | succ n ih =>
    intro s
    rw [Function.iterate_succ_apply']
    exact le_trans (ih s) (phase1Step_length_mono sq r thr _)

/-- The invariant is preserved along iterations of the driver. -/
theorem phase1_iterate_inv (sq : ℚ → ℚ) (r : ℕ → ℚ) (thr : ℚ)
    (s : GrowthState) (h : Inv s) :
    ∀ n : ℕ, Inv ((phase1Step sq r thr 3 8)^[n] s) := by
  intro n
  induction n with
  | zero => simpa using h
  | succ n ih =>
    rw [Function.iterate_succ_apply']
    exact phase1Step_inv sq r thr _ ih

/-- Paired path/division projection of a growth pass. -/
theorem stepCells_fst_pair (sq : ℚ → ℚ) (r : ℕ → ℚ) (thr : ℚ)
    (divThr : ℕ) (l : List Cell) :
    ∀ k, (stepCells sq r thr divThr l k).1.map
        (fun c => (c.pathTraveled, c.numberDivisions)) =
      l.map (fun c =>
        if c.numberDivisions < divThr ∧ thr < c.pathTraveled + 1 / 10
        then (c.pathTraveled + 1 / 10 - thr, c.numberDivisions + 1)
        else (c.pathTraveled + 1 / 10, c.numberDivisions)) := by
  induction l with
  | nil => intro k; rfl
  | cons cell rest ih =>
    intro k
    rw [stepCells]
    dsimp only
    simp only [moveCell_pathTraveled]
    by_cases h : cell.numberDivisions < divThr ∧ thr < cell.pathTraveled + 1 / 10
    · rw [if_pos h]
      simp only [List.map_cons]
      rw [if_pos h]
      simp [parentAfterDivision_pathTraveled, parentAfterDivision_numberDivisions,
        moveCell_pathTraveled, ih]
    · rw [if_neg h]
      simp only [List.map_cons]
      rw [if_neg h]
      simp [moveCell_pathTraveled, moveCell_numberDivisions, ih]

/-- If a below-target driver iteration does not change the population
size, no cell divided: every path length grows by exactly 0.1 and every
division count is unchanged. -/
theorem phase1Step_no_growth_pair (sq : ℚ → ℚ) (r : ℕ → ℚ) (thr : ℚ)
    (s : GrowthState) (hlen : s.cells.length < 8)
    (hsame : (phase1Step sq r thr 3 8 s).cells.length = s.cells.length) :
    (phase1Step sq r thr 3 8 s).cells.map
        (fun c => (c.pathTraveled, c.numberDivisions)) =
      s.cells.map (fun c => (c.pathTraveled + 1 / 10, c.numberDivisions)) := by
  have hlenf := phase1Step_length_of_lt sq r thr s hlen
  have hcnt : s.cells.countP (trig thr 3) = 0 := by omega
  have hfalse : ∀ c ∈ s.cells,
      ¬(c.numberDivisions < 3 ∧ thr < c.pathTraveled + 1 / 10) := by
    intro c hc hx
    have hz := List.countP_eq_zero.mp hcnt c hc
    exact hz ((trig_iff thr 3 c).mpr hx)
  have hds : (stepCells sq r thr 3 s.cells s.rng).2.1 = [] := by
    have hd := stepCells_daughters_length sq r thr 3 s.cells s.rng
    rw [hcnt] at hd
    exact List.eq_nil_of_length_eq_zero hd
  rw [phase1Step_cells_of_lt sq r thr 3 8 s hlen,
    clampPassPhase1_map (fun c => (c.pathTraveled, c.numberDivisions)) (fun c => rfl),
    hds, List.append_nil, stepCells_fst_pair]
  refine List.map_congr_left ?_
  intro c hc
  rw [if_neg (hfalse c hc)]

/-- Within any window of `K` driver iterations with `K/10` above the path
threshold, a below-target invariant population strictly grows. -/
theorem phase1_window (sq : ℚ → ℚ) (r : ℕ → ℚ) (thr : ℚ) (hthr : 0 < thr)
    (K : ℕ) (hK : thr < (K : ℚ) / 10) (s : GrowthState) (hInv : Inv s)
    (hlen : s.cells.length < 8) :
    s.cells.length < ((phase1Step sq r thr 3 8)^[K] s).cells.length := by
  by_contra hcon
  push_neg at hcon
  have hmono := phase1_iterate_mono sq r thr
  have hall : ∀ j, j ≤ K →
      ((phase1Step sq r thr 3 8)^[j] s).cells.length = s.cells.length := by
    intro j hj
    have h1 := hmono j s
    have h2 : ((phase1Step sq r thr 3 8)^[j] s).cells.length ≤
        ((phase1Step sq r thr 3 8)^[K] s).cells.length := by
      have he : (phase1Step sq r thr 3 8)^[K] s =
          (phase1Step sq r thr 3 8)^[K - j] ((phase1Step sq r thr 3 8)^[j] s) := by
        rw [← Function.iterate_add_apply]
        congr 1
        omega
      rw [he]
      exact hmono (K - j) _
    omega
  have hpair : ∀ j, j ≤ K →
      ((phase1Step sq r thr 3 8)^[j] s).cells.map
          (fun c => (c.pathTraveled, c.numberDivisions)) =
        s.cells.map
          (fun c => (c.pathTraveled + (j : ℚ) * (1 / 10), c.numberDivisions)) := by
    intro j
    induction j with
    | zero =>
      intro _
      simp
    | succ j ihj =>
      intro hj
      have hj' : j ≤ K := by omega
      have hpj := ihj hj'
      have hlenj : ((phase1Step sq r thr 3 8)^[j] s).cells.length < 8 := by
        rw [hall j hj']
        exact hlen
      have hsame : (phase1Step sq r thr 3 8
          ((phase1Step sq r thr 3 8)^[j] s)).cells.length =
          ((phase1Step sq r thr 3 8)^[j] s).cells.length := by
        rw [← Function.iterate_succ_apply' (phase1Step sq r thr 3 8) j s,
          hall (j + 1) hj, hall j hj']
      have hstep := phase1Step_no_growth_pair sq r thr _ hlenj hsame
      rw [Function.iterate_succ_apply', hstep]
      have hcmp : ((phase1Step sq r thr 3 8)^[j] s).cells.map
          (fun c => (c.pathTraveled + 1 / 10, c.numberDivisions)) =
          (((phase1Step sq r thr 3 8)^[j] s).cells.map
            (fun c => (c.pathTraveled, c.numberDivisions))).map
              (fun q => (q.1 + 1 / 10, q.2)) :=
        (List.map_map (fun q : ℚ × ℕ => (q.1 + 1 / 10, q.2))
          (fun c : Cell => (c.pathTraveled, c.numberDivisions))
          ((phase1Step sq r thr 3 8)^[j] s).cells).symm
      rw [hcmp, hpj, List.map_map]
      refine List.map_congr_left ?_
      intro c _
      show (c.pathTraveled + (j : ℚ) * (1 / 10) + 1 / 10, c.numberDivisions) =
        (c.pathTraveled + ((j + 1 : ℕ) : ℚ) * (1 / 10), c.numberDivisions)
      have he : c.pathTraveled + (j : ℚ) * (1 / 10) + 1 / 10 =
          c.pathTraveled + ((j + 1 : ℕ) : ℚ) * (1 / 10) := by
        push_cast
        ring
      rw [he]
  obtain ⟨c0, hc0, hc0div⟩ := inv_exists_active s hInv hlen
  have hKpos : 1 ≤ K := by
    by_contra hk
    have hK0 : K = 0 := by omega
    rw [hK0] at hK
    norm_num at hK
    linarith
  have hK1 : K - 1 ≤ K := by omega
  have hpK := hpair (K - 1) hK1
  have hmem : (c0.pathTraveled + ((K - 1 : ℕ) : ℚ) * (1 / 10), c0.numberDivisions) ∈
      ((phase1Step sq r thr 3 8)^[K - 1] s).cells.map
        (fun c => (c.pathTraveled, c.numberDivisions)) := by
    rw [hpK]
    exact List.mem_map_of_mem _ hc0
  obtain ⟨c1, hc1mem, hc1eq⟩ := List.mem_map.mp hmem
  have hc1path : c1.pathTraveled =
      c0.pathTraveled + ((K - 1 : ℕ) : ℚ) * (1 / 10) := congrArg Prod.fst hc1eq
  have hc1div : c1.numberDivisions = c0.numberDivisions := congrArg Prod.snd hc1eq
  have hc0p0 : 0 ≤ c0.pathTraveled := hInv.1 c0 hc0
  have hcast : ((K - 1 : ℕ) : ℚ) = (K : ℚ) - 1 := by
    rw [Nat.cast_sub hKpos]
    norm_num
  have htrig : trig thr 3 c1 = true := by
    rw [trig_iff]
    refine ⟨by rw [hc1div]; exact hc0div, ?_⟩
    rw [hc1path, hcast]
    have hK10 : (K : ℚ) / 10 = ((K : ℚ) - 1) * (1 / 10) + 1 / 10 := by ring
    rw [hK10] at hK
    linarith
  have hlenK1 : ((phase1Step sq r thr 3 8)^[K - 1] s).cells.length < 8 := by
    rw [hall (K - 1) hK1]
    exact hlen
  have hcntpos : 0 < ((phase1Step sq r thr 3 8)^[K - 1] s).cells.countP (trig thr 3) := by
    rw [List.countP_pos]
    exact ⟨c1, hc1mem, htrig⟩
  have hlenstep := phase1Step_length_of_lt sq r thr _ hlenK1
  have hfin : ((phase1Step sq r thr 3 8)^[K] s) =
      phase1Step sq r thr 3 8 ((phase1Step sq r thr 3 8)^[K - 1] s) := by
    have he2 := Function.iterate_succ_apply' (phase1Step sq r thr 3 8) (K - 1) s
    rw [show (K - 1).succ = K by omega] at he2
    exact he2
  have hKlen := hall K (le_refl K)
  have hK1len := hall (K - 1) hK1
  rw [hfin, hlenstep, hK1len] at hKlen
  omega

/-- Termination of phase 1 under the invariant: from any invariant state
within `m` cells of the target, some number of driver iterations reaches
exactly 8 cells. -/
theorem phase1_reach (sq : ℚ → ℚ) (r : ℕ → ℚ) (thr : ℚ) (hthr : 0 < thr)
    (K : ℕ) (hK : thr < (K : ℚ) / 10) :
    ∀ (m : ℕ) (s : GrowthState), Inv s → 8 ≤ s.cells.length + m →
      ∃ N, ((phase1Step sq r thr 3 8)^[N] s).cells.length = 8 := by
  intro m
  induction m with
  | zero =>
    intro s hInv hge
    refine ⟨0, ?_⟩
    have hle := inv_length_le s hInv
    simp only [Function.iterate_zero_apply]
    omega
  | succ m ih =>
    intro s hInv hge
    by_cases heq : s.cells.length = 8
    · exact ⟨0, by simpa using heq⟩
    · have hlt : s.cells.length < 8 :=
        lt_of_le_of_ne (inv_length_le s hInv) heq
      have hwin := phase1_window sq r thr hthr K hK s hInv hlt
      have hInv' : Inv ((phase1Step sq r thr 3 8)^[K] s) :=
        phase1_iterate_inv sq r thr s hInv K
      have hge' : 8 ≤ ((phase1Step sq r thr 3 8)^[K] s).cells.length + m := by
        omega
      obtain ⟨N, hN⟩ := ih ((phase1Step sq r thr 3 8)^[K] s) hInv' hge'
      refine ⟨N + K, ?_⟩
      rw [Function.iterate_add_apply]
      exact hN

/-- C1 (amended): starting from the single seed cell (type +1, zero
divisions, zero path traveled) with `finalNumberCells = 8`,
`divThreshold = 3` and any fixed `pathThreshold > 0`, phase 1 of the
driver terminates: after some number `N` of iterations the active cell
count is exactly 8, that state is a fixed point of the driver loop, and
the sum of `numberDivisions` over the 8 cells is 24 (every cell ends at
the division threshold 3; the number of division events is 7, but the
recorded division counts are inherited by daughters and sum to 24, not
7). -/
theorem phase1_terminates_eight_cells (sq : ℚ → ℚ) (r : ℕ → ℚ) (z0 : ℚ)
    (thr : ℚ) (hthr : 0 < thr) :
    ∃ N, (((phase1Step sq r thr 3 8)^[N]) (initState z0)).cells.length = 8 ∧
      ((((phase1Step sq r thr 3 8)^[N]) (initState z0)).cells.map
        Cell.numberDivisions).sum = 24 ∧
      phase1Step sq r thr 3 8 (((phase1Step sq r thr 3 8)^[N]) (initState z0)) =
        ((phase1Step sq r thr 3 8)^[N]) (initState z0) := by
  have hInv0 : Inv (initState z0) := by
    refine ⟨?_, ?_, ?_⟩ <;> simp [initState, Inv, phi]
  obtain ⟨K, hKgt⟩ := exists_nat_gt (10 * thr)
  have hK : thr < (K : ℚ) / 10 := by
    rw [lt_div_iff (by norm_num : (0 : ℚ) < 10)]
    linarith
  obtain ⟨N, hN⟩ := phase1_reach sq r thr hthr K hK 7 (initState z0) hInv0
    (by simp [initState])
  refine ⟨N, hN, ?_, ?_⟩
  · exact inv_sum_divisions _ (phase1_iterate_inv sq r thr _ hInv0 N) hN
  · apply phase1Step_of_ge
    omega

/-- Instantiation of `phase1_terminates_eight_cells` at a concrete
threshold, seed coordinate and streams. -/
theorem phase1_terminates_eight_cells_witness :
    (0 : ℚ) < 1 ∧
      ∃ N, (((phase1Step (fun _ => 0) (fun _ => 0) 1 3 8)^[N]) (initState 0)).cells.length = 8 ∧
        ((((phase1Step (fun _ => 0) (fun _ => 0) 1 3 8)^[N]) (initState 0)).cells.map
          Cell.numberDivisions).sum = 24 ∧
        phase1Step (fun _ => 0) (fun _ => 0) 1 3 8
            (((phase1Step (fun _ => 0) (fun _ => 0) 1 3 8)^[N]) (initState 0)) =
          ((phase1Step (fun _ => 0) (fun _ => 0) 1 3 8)^[N]) (initState 0) :=
  ⟨by norm_num,
    phase1_terminates_eight_cells (fun _ => 0) (fun _ => 0) 0 1 (by norm_num)⟩

/-- Below the target, one driver iteration advances the random-stream
cursor to the value produced by the growth pass. -/
theorem phase1Step_rng_of_lt (sq : ℚ → ℚ) (r : ℕ → ℚ) (thr : ℚ)
    (target : ℕ) (s : GrowthState) (hlen : s.cells.length < target) :
    (phase1Step sq r thr 3 target s).rng =
      (stepCells sq r thr 3 s.cells s.rng).2.2 := by
  have h := cmadGo_eq_stepCells sq r thr 3 s.cells [] [] s.rng
  simp only [List.length_nil, List.nil_append, List.append_nil] at h
  unfold phase1Step
  rw [if_pos hlen]
  unfold cellMovementAndDuplication
  rw [h]

/-- Two growth states with the same fields are equal. -/
theorem growthState_ext (s t : GrowthState) (hc : s.cells = t.cells)
    (hr : s.rng = t.rng) : s = t := by
  cases s
  cases t
  simp only at hc hr
  rw [hc, hr]

/-- Setting an index to the clamp of its own current value is the
identity when clamping fixes every element of the list. -/
theorem list_set_clamp_id (l : List Cell) (h : ∀ c ∈ l, clampCell c = c) :
    ∀ j, l.set j (clampCell (l.getD j default)) = l := by
  induction l with
  | nil => intro j; rfl
  | cons a t ih =>
    intro j
    cases j with
    | zero =>
      show (clampCell a) :: t = a :: t
      rw [h a (List.mem_cons_self a t)]
    | succ j =>
      show a :: t.set j (clampCell (t.getD j default)) = a :: t
      rw [ih (fun c hc => h c (List.mem_cons_of_mem a hc)) j]

/-- The phase-1 clamp loop is the identity on a population it fixes. -/
theorem clampGoPhase1_id (l : List Cell) (h : ∀ c ∈ l, clampCell c = c) :
    ∀ m, clampGoPhase1 m l = l := by
  intro m
  induction m with
  | zero => rfl
  | succ m ih =>
    rw [clampGoPhase1, list_set_clamp_id l h, ih]

/-- The phase-1 clamp pass is the identity on a population it fixes. -/
theorem clampPassPhase1_id (l : List Cell) (h : ∀ c ∈ l, clampCell c = c) :
    clampPassPhase1 l = l :=
  clampGoPhase1_id l h l.length

/-- A cell at the cube center is fixed by the boundary clamp. -/
theorem clampCell_center (t : ℤ) (p : ℚ) (d : ℕ) :
    clampCell ⟨(1 / 2, 1 / 2, 1 / 2), t, p, d⟩ = ⟨(1 / 2, 1 / 2, 1 / 2), t, p, d⟩ := by
  norm_num [clampCell, clampQ]

/-- Concrete run with `pathThreshold = 1/20`, all-zero random stream and
zero square root: first growth pass. -/
theorem run_stepCells_1 :
    stepCells (fun _ => 0) (fun _ => 0) (1 / 20) 3
        [⟨(1 / 2, 1 / 2, 1 / 2), 1, 0, 0⟩] 0 =
      ([⟨(1 / 2, 1 / 2, 1 / 2), 1, 1 / 20, 1⟩],
        [⟨(1 / 2, 1 / 2, 1 / 2), -1, 0, 1⟩], 6) := by
  norm_num [stepCells, moveCell, daughterCell, parentAfterDivision, rvec, getNorm,
    Cell.mk.injEq, Prod.mk.injEq]

/-- Concrete run: second growth pass (both cells divide). -/
theorem run_stepCells_2 :
    stepCells (fun _ => 0) (fun _ => 0) (1 / 20) 3
        [⟨(1 / 2, 1 / 2, 1 / 2), 1, 1 / 20, 1⟩,
          ⟨(1 / 2, 1 / 2, 1 / 2), -1, 0, 1⟩] 6 =
      ([⟨(1 / 2, 1 / 2, 1 / 2), 1, 1 / 10, 2⟩,
          ⟨(1 / 2, 1 / 2, 1 / 2), -1, 1 / 20, 2⟩],
        [⟨(1 / 2, 1 / 2, 1 / 2), -1, 0, 2⟩,
          ⟨(1 / 2, 1 / 2, 1 / 2), 1, 0, 2⟩], 18) := by
  norm_num [stepCells, moveCell, daughterCell, parentAfterDivision, rvec, getNorm,
    Cell.mk.injEq, Prod.mk.injEq]

/-- Concrete run: third growth pass (all four cells divide, reaching the
division threshold). -/
theorem run_stepCells_3 :
    stepCells (fun _ => 0) (fun _ => 0) (1 / 20) 3
        [⟨(1 / 2, 1 / 2, 1 / 2), 1, 1 / 10, 2⟩,
          ⟨(1 / 2, 1 / 2, 1 / 2), -1, 1 / 20, 2⟩,
          ⟨(1 / 2, 1 / 2, 1 / 2), -1, 0, 2⟩,
          ⟨(1 / 2, 1 / 2, 1 / 2), 1, 0, 2⟩] 18 =
      ([⟨(1 / 2, 1 / 2, 1 / 2), 1, 3 / 20, 3⟩,
          ⟨(1 / 2, 1 / 2, 1 / 2), -1, 1 / 10, 3⟩,
          ⟨(1 / 2, 1 / 2, 1 / 2), -1, 1 / 20, 3⟩,
          ⟨(1 / 2, 1 / 2, 1 / 2), 1, 1 / 20, 3⟩],
        [⟨(1 / 2, 1 / 2, 1 / 2), -1, 0, 3⟩,
          ⟨(1 / 2, 1 / 2, 1 / 2), 1, 0, 3⟩,
          ⟨(1 / 2, 1 / 2, 1 / 2), 1, 0, 3⟩,
          ⟨(1 / 2, 1 / 2, 1 / 2), -1, 0, 3⟩], 42) := by
  norm_num [stepCells, moveCell, daughterCell, parentAfterDivision, rvec, getNorm,
    Cell.mk.injEq, Prod.mk.injEq]

/-- Concrete run: first driver iteration, for any target above 1. -/
theorem run_phase1Step_1 (target : ℕ) (h : 1 < target) :
    phase1Step (fun _ => 0) (fun _ => 0) (1 / 20) 3 target (initState (1 / 2)) =
      ⟨[⟨(1 / 2, 1 / 2, 1 / 2), 1, 1 / 20, 1⟩,
        ⟨(1 / 2, 1 / 2, 1 / 2), -1, 0, 1⟩], 6⟩ := by
  have hlen : (initState (1 / 2)).cells.length < target := by
    simpa [initState] using h
  refine growthState_ext _ _ ?_ ?_
  · rw [phase1Step_cells_of_lt (fun _ => 0) (fun _ => 0) (1 / 20) 3 target _ hlen]
    show clampPassPhase1
        ((stepCells (fun _ => 0) (fun _ => 0) (1 / 20) 3
          [⟨(1 / 2, 1 / 2, 1 / 2), 1, 0, 0⟩] 0).1 ++
        (stepCells (fun _ => 0) (fun _ => 0) (1 / 20) 3
          [⟨(1 / 2, 1 / 2, 1 / 2), 1, 0, 0⟩] 0).2.1) = _
    rw [run_stepCells_1]
    exact clampPassPhase1_id _ (by
      intro c hc
      simp only [List.cons_append, List.nil_append, List.mem_cons,
        List.not_mem_nil, or_false] at hc
      rcases hc with rfl | rfl <;> exact clampCell_center _ _ _)
  · rw [phase1Step_rng_of_lt (fun _ => 0) (fun _ => 0) (1 / 20) target _ hlen]
    show (stepCells (fun _ => 0) (fun _ => 0) (1 / 20) 3
      [⟨(1 / 2, 1 / 2, 1 / 2), 1, 0, 0⟩] 0).2.2 = 6
    rw [run_stepCells_1]

/-- Concrete run: second driver iteration, for any target above 2. -/
theorem run_phase1Step_2 (target : ℕ) (h : 2 < target) :
    phase1Step (fun _ => 0) (fun _ => 0) (1 / 20) 3 target
        ⟨[⟨(1 / 2, 1 / 2, 1 / 2), 1, 1 / 20, 1⟩,
          ⟨(1 / 2, 1 / 2, 1 / 2), -1, 0, 1⟩], 6⟩ =
      ⟨[⟨(1 / 2, 1 / 2, 1 / 2), 1, 1 / 10, 2⟩,
        ⟨(1 / 2, 1 / 2, 1 / 2), -1, 1 / 20, 2⟩,
        ⟨(1 / 2, 1 / 2, 1 / 2), -1, 0, 2⟩,
        ⟨(1 / 2, 1 / 2, 1 / 2), 1, 0, 2⟩], 18⟩ := by
  have hlen : ([⟨(1 / 2, 1 / 2, 1 / 2), 1, 1 / 20, 1⟩,
      ⟨(1 / 2, 1 / 2, 1 / 2), -1, 0, 1⟩] : List Cell).length < target := by
    simpa using h
  refine growthState_ext _ _ ?_ ?_
  · rw [phase1Step_cells_of_lt (fun _ => 0) (fun _ => 0) (1 / 20) 3 target _ hlen]
    rw [run_stepCells_2]
    exact clampPassPhase1_id _ (by
      intro c hc
      simp only [List.cons_append, List.nil_append, List.mem_cons,
        List.not_mem_nil, or_false] at hc
      rcases hc with rfl | rfl | rfl | rfl <;> exact clampCell_center _ _ _)
  · rw [phase1Step_rng_of_lt (fun _ => 0) (fun _ => 0) (1 / 20) target _ hlen]
    rw [run_stepCells_2]

/-- Concrete run: third driver iteration, for any target above 4. -/
theorem run_phase1Step_3 (target : ℕ) (h : 4 < target) :
    phase1Step (fun _ => 0) (fun _ => 0) (1 / 20) 3 target
        ⟨[⟨(1 / 2, 1 / 2, 1 / 2), 1, 1 / 10, 2⟩,
          ⟨(1 / 2, 1 / 2, 1 / 2), -1, 1 / 20, 2⟩,
          ⟨(1 / 2, 1 / 2, 1 / 2), -1, 0, 2⟩,
          ⟨(1 / 2, 1 / 2, 1 / 2), 1, 0, 2⟩], 18⟩ =
      ⟨[⟨(1 / 2, 1 / 2, 1 / 2), 1, 3 / 20, 3⟩,
        ⟨(1 / 2, 1 / 2, 1 / 2), -1, 1 / 10, 3⟩,
        ⟨(1 / 2, 1 / 2, 1 / 2), -1, 1 / 20, 3⟩,
        ⟨(1 / 2, 1 / 2, 1 / 2), 1, 1 / 20, 3⟩,
        ⟨(1 / 2, 1 / 2, 1 / 2), -1, 0, 3⟩,
        ⟨(1 / 2, 1 / 2, 1 / 2), 1, 0, 3⟩,
        ⟨(1 / 2, 1 / 2, 1 / 2), 1, 0, 3⟩,
        ⟨(1 / 2, 1 / 2, 1 / 2), -1, 0, 3⟩], 42⟩ := by
  have hlen : ([⟨(1 / 2, 1 / 2, 1 / 2), 1, 1 / 10, 2⟩,
      ⟨(1 / 2, 1 / 2, 1 / 2), -1, 1 / 20, 2⟩,
      ⟨(1 / 2, 1 / 2, 1 / 2), -1, 0, 2⟩,
      ⟨(1 / 2, 1 / 2, 1 / 2), 1, 0, 2⟩] : List Cell).length < target := by
    simpa using h
  refine growthState_ext _ _ ?_ ?_
  · rw [phase1Step_cells_of_lt (fun _ => 0) (fun _ => 0) (1 / 20) 3 target _ hlen]
    rw [run_stepCells_3]
    exact clampPassPhase1_id _ (by
      intro c hc
      simp only [List.cons_append, List.nil_append, List.mem_cons,
        List.not_mem_nil, or_false] at hc
      rcases hc with rfl | rfl | rfl | rfl | rfl | rfl | rfl | rfl <;>
        exact clampCell_center _ _ _)
  · rw [phase1Step_rng_of_lt (fun _ => 0) (fun _ => 0) (1 / 20) target _ hlen]
    rw [run_stepCells_3]

/-- C1 counterexample: with `finalNumberCells = 8`, `divThreshold = 3` and
the concrete `pathThreshold = 1/20` (zero random stream and zero square
root), phase 1 terminates after 3 iterations with exactly 8 cells, but the
sum of `numberDivisions` over the 8 cells is 24, not 7 as the claim
states. -/
theorem phase1_division_sum_24_refutes_7 :
    ((phase1Step (fun _ => 0) (fun _ => 0) (1 / 20) 3 8)^[3]
        (initState (1 / 2))).cells.length = 8 ∧
      phase1Step (fun _ => 0) (fun _ => 0) (1 / 20) 3 8
          ((phase1Step (fun _ => 0) (fun _ => 0) (1 / 20) 3 8)^[3]
            (initState (1 / 2))) =
        (phase1Step (fun _ => 0) (fun _ => 0) (1 / 20) 3 8)^[3]
          (initState (1 / 2)) ∧
      (((phase1Step (fun _ => 0) (fun _ => 0) (1 / 20) 3 8)^[3]
        (initState (1 / 2))).cells.map Cell.numberDivisions).sum = 24 ∧
      ¬((((phase1Step (fun _ => 0) (fun _ => 0) (1 / 20) 3 8)^[3]
        (initState (1 / 2))).cells.map Cell.numberDivisions).sum = 7) := by
  have hiter : (phase1Step (fun _ => 0) (fun _ => 0) (1 / 20) 3 8)^[3]
      (initState (1 / 2)) =
      ⟨[⟨(1 / 2, 1 / 2, 1 / 2), 1, 3 / 20, 3⟩,
        ⟨(1 / 2, 1 / 2, 1 / 2), -1, 1 / 10, 3⟩,
        ⟨(1 / 2, 1 / 2, 1 / 2), -1, 1 / 20, 3⟩,
        ⟨(1 / 2, 1 / 2, 1 / 2), 1, 1 / 20, 3⟩,
        ⟨(1 / 2, 1 / 2, 1 / 2), -1, 0, 3⟩,
        ⟨(1 / 2, 1 / 2, 1 / 2), 1, 0, 3⟩,
        ⟨(1 / 2, 1 / 2, 1 / 2), 1, 0, 3⟩,
        ⟨(1 / 2, 1 / 2, 1 / 2), -1, 0, 3⟩], 42⟩ := by
    show phase1Step (fun _ => 0) (fun _ => 0) (1 / 20) 3 8
        (phase1Step (fun _ => 0) (fun _ => 0) (1 / 20) 3 8
          (phase1Step (fun _ => 0) (fun _ => 0) (1 / 20) 3 8
            (initState (1 / 2)))) = _
    rw [run_phase1Step_1 8 (by norm_num), run_phase1Step_2 8 (by norm_num),
      run_phase1Step_3 8 (by norm_num)]
  rw [hiter]
  refine ⟨rfl, ?_, ?_, ?_⟩
  · exact phase1Step_of_ge _ _ _ _ _ _ (by simp)
  · simp
  · simp

/-- C10: with `finalNumberCells = 7`, `divThreshold = 3` and
`pathThreshold = 1/20` — a validated configuration — phase 1 checks
`n < finalNumberCells` only between whole growth passes while one pass
appends a daughter for every dividing cell, so the loop terminates with 8
cells, strictly more than `finalNumberCells`; in particular the eighth
daughter record sits at index 7, at or beyond the capacity
`finalNumberCells = 7` the arrays were allocated with. -/
theorem phase1_overshoots_target_7 :
    ((phase1Step (fun _ => 0) (fun _ => 0) (1 / 20) 3 7)^[3]
        (initState (1 / 2))).cells.length = 8 ∧
      7 < ((phase1Step (fun _ => 0) (fun _ => 0) (1 / 20) 3 7)^[3]
        (initState (1 / 2))).cells.length ∧
      phase1Step (fun _ => 0) (fun _ => 0) (1 / 20) 3 7
          ((phase1Step (fun _ => 0) (fun _ => 0) (1 / 20) 3 7)^[3]
            (initState (1 / 2))) =
        (phase1Step (fun _ => 0) (fun _ => 0) (1 / 20) 3 7)^[3]
          (initState (1 / 2)) := by
  have hiter : (phase1Step (fun _ => 0) (fun _ => 0) (1 / 20) 3 7)^[3]
      (initState (1 / 2)) =
      ⟨[⟨(1 / 2, 1 / 2, 1 / 2), 1, 3 / 20, 3⟩,
        ⟨(1 / 2, 1 / 2, 1 / 2), -1, 1 / 10, 3⟩,
        ⟨(1 / 2, 1 / 2, 1 / 2), -1, 1 / 20, 3⟩,
        ⟨(1 / 2, 1 / 2, 1 / 2), 1, 1 / 20, 3⟩,
        ⟨(1 / 2, 1 / 2, 1 / 2), -1, 0, 3⟩,
        ⟨(1 / 2, 1 / 2, 1 / 2), 1, 0, 3⟩,
        ⟨(1 / 2, 1 / 2, 1 / 2), 1, 0, 3⟩,
        ⟨(1 / 2, 1 / 2, 1 / 2), -1, 0, 3⟩], 42⟩ := by
    show phase1Step (fun _ => 0) (fun _ => 0) (1 / 20) 3 7
        (phase1Step (fun _ => 0) (fun _ => 0) (1 / 20) 3 7
          (phase1Step (fun _ => 0) (fun _ => 0) (1 / 20) 3 7
            (initState (1 / 2)))) = _
    rw [run_phase1Step_1 7 (by norm_num), run_phase1Step_2 7 (by norm_num),
      run_phase1Step_3 7 (by norm_num)]
  rw [hiter]
  refine ⟨rfl, by norm_num, ?_⟩
  exact phase1Step_of_ge _ _ _ _ _ _ (by simp)

/-- C7: `getCriterion` returns false exactly when one of the four policy
tests fails on the central subvolume (cells within `subVolMax` of the
center on every axis, close pairs being subvolume pairs at distance below
`spatialRange`): (a) the subvolume population is below `0.25 * targetN`,
(b) above `4 * targetN`, (c) the different-type close-pair ratio with the
`+1` denominator guard, `diffTypeClose/(nrClose+1)`, exceeds 0.1, or
(d) the average same-type close-pair count per subvolume cell,
`sameTypeClose/nrCellsSubVol`, is below 100; otherwise it returns true. -/
theorem getCriterion_false_iff (sq rt3 : ℚ → ℚ) (cells : List Cell)
    (range : ℚ) (targetN : ℤ) (htN : 0 < targetN) :
    getCriterion sq rt3 cells range targetN = false ↔
      (((subvolCells rt3 cells targetN).length : ℚ) < 1 / 4 * (targetN : ℚ) ∨
        ((subvolCells rt3 cells targetN).length : ℚ) > 4 * (targetN : ℚ) ∨
        (diffTypeClose sq rt3 cells range targetN : ℚ) /
          ((nrClose sq rt3 cells range targetN : ℚ) + 1) > 1 / 10 ∨
        (sameTypeClose sq rt3 cells range targetN : ℚ) /
          ((subvolCells rt3 cells targetN).length : ℚ) < 100) := by
  have ht : (0 : ℚ) < (targetN : ℚ) := by exact_mod_cast htN
  have e1 : (((subvolCells rt3 cells targetN).length : ℚ) / (targetN : ℚ) < 1 / 4) ↔
      (((subvolCells rt3 cells targetN).length : ℚ) < 1 / 4 * (targetN : ℚ)) :=
    div_lt_iff ht
  have e2 : (((subvolCells rt3 cells targetN).length : ℚ) / (targetN : ℚ) > 4) ↔
      (((subvolCells rt3 cells targetN).length : ℚ) > 4 * (targetN : ℚ)) := by
    rw [gt_iff_lt, lt_div_iff ht, gt_iff_lt]
  unfold getCriterion
  dsimp only
  split_ifs with h1 h2 h3 h4
  · exact iff_of_true rfl (Or.inl (e1.mp h1))
  · exact iff_of_true rfl (Or.inr (Or.inl (e2.mp h2)))
  · exact iff_of_true rfl (Or.inr (Or.inr (Or.inl h3)))
  · exact iff_of_true rfl (Or.inr (Or.inr (Or.inr h4)))
  · refine iff_of_false (by simp) ?_
    rintro (hc | hc | hc | hc)
    · exact h1 (e1.mpr hc)
    · exact h2 (e2.mpr hc)
    · exact h3 hc
    · exact h4 hc

/-- Instantiation of `getCriterion_false_iff`: one centered cell,
`targetN = 4`, unit range, zero square root, unit cube root. -/
theorem getCriterion_false_iff_witness :
    (0 : ℤ) < 4 ∧
      (getCriterion (fun _ => 0) (fun _ => 1)
          [⟨(1 / 2, 1 / 2, 1 / 2), 1, 0, 0⟩] 1 4 = false ↔
        (((subvolCells (fun _ => 1) [⟨(1 / 2, 1 / 2, 1 / 2), 1, 0, 0⟩] 4).length : ℚ) <
            1 / 4 * ((4 : ℤ) : ℚ) ∨
          ((subvolCells (fun _ => 1) [⟨(1 / 2, 1 / 2, 1 / 2), 1, 0, 0⟩] 4).length : ℚ) >
            4 * ((4 : ℤ) : ℚ) ∨
          (diffTypeClose (fun _ => 0) (fun _ => 1)
              [⟨(1 / 2, 1 / 2, 1 / 2), 1, 0, 0⟩] 1 4 : ℚ) /
            ((nrClose (fun _ => 0) (fun _ => 1)
              [⟨(1 / 2, 1 / 2, 1 / 2), 1, 0, 0⟩] 1 4 : ℚ) + 1) > 1 / 10 ∨
          (sameTypeClose (fun _ => 0) (fun _ => 1)
              [⟨(1 / 2, 1 / 2, 1 / 2), 1, 0, 0⟩] 1 4 : ℚ) /
            ((subvolCells (fun _ => 1) [⟨(1 / 2, 1 / 2, 1 / 2), 1, 0, 0⟩] 4).length : ℚ) <
              100)) :=
  ⟨by norm_num,
    getCriterion_false_iff (fun _ => 0) (fun _ => 1)
      [⟨(1 / 2, 1 / 2, 1 / 2), 1, 0, 0⟩] 1 4 (by norm_num)⟩

end CellClustering
